import Mathlib

/-!
# Verification of the Chroma log materializer (`LogMaterializerV2`)

Shallow embedding of `rust/worker/src/segment/types.rs`: the data model
(`MaterializedLogRecordV2`, `DataRecord`, the operation log) and the core
algorithm `LogMaterializerV2::materializeV2`, together with proofs of the
behavioural properties of the materialization pass.

Modelling conventions:
* Rust `HashMap<&str, _>` tables are modelled as association lists with
  lookup/insert/remove/in-place-modify operations; iteration order of the
  final collection loop is the (deterministic) insertion order of the list,
  a sound refinement since the source's hash-map iteration order is
  unspecified and no property below depends on it.
* The `AtomicU32` offset counter is modelled as a `Nat` reduced modulo
  `2 ^ 32` at each `fetch_add`; `fetch_add(1)` returns the pre-increment
  value, exactly as in Rust.  A single materialization call is modelled
  (concurrent interleaving on the shared counter is out of scope).
* `f32` embedding payloads are modelled as `List Int`: the algorithm never
  inspects the numeric content of an embedding, it only moves it around,
  so any carrier type with decidable equality is faithful.
* External collaborators (`RecordSegmentReader`, the metadata utilities
  from `crate::types`) are not part of the source tree; they are modelled
  from the spec, each marked `Modelled from the spec:` in its doc comment.
-/

/-- The four log operation kinds (`crate::types::Operation`). -/
inductive Operation where
  | add
  | update
  | delete
  | upsert
deriving DecidableEq, Repr

/-- Modelled from the spec: a canonical metadata value (the spec's "tagged
scalar value").  The source's `MetadataValue` lives in `crate::types`
(outside the provided tree); float payloads are omitted since no property
below depends on the numeric kind of a value. -/
inductive MetadataValue where
  | intValue (i : Int)
  | strValue (s : String)
deriving DecidableEq, Repr

/-- Modelled from the spec: a metadata value as it appears in a log
operation's patch.  `noneValue` is the spec's "delete marker": it
tombstones a key during a merge and fails canonical-value coercion. -/
inductive UpdateMetadataValue where
  | intValue (i : Int)
  | strValue (s : String)
  | noneValue
deriving DecidableEq, Repr

/-- Metadata mapping (`crate::types::Metadata`), as an association list. -/
abbrev Metadata := List (String × MetadataValue)

/-- Patch metadata mapping (`crate::types::UpdateMetadata`). -/
abbrev UpdateMetadata := List (String × UpdateMetadataValue)

/-- Embedding payload; stands in for the source's `Vec<f32>` / `&[f32]`. -/
abbrev Embedding := List Int

/-- Modelled from the spec: the error of the metadata coercion utility
(`crate::types::MetadataValueConversionError`). -/
inductive MetadataValueConversionError where
  | invalidValue
deriving DecidableEq, Repr

/-- A durable record as read from the record segment (`DataRecord`). -/
structure DataRecord where
  id : String
  embedding : Embedding
  metadata : Option Metadata
  document : Option String
deriving DecidableEq, Repr

/-- One log operation (`crate::types::OperationRecord`; the unused
`encoding` field is omitted). -/
structure OperationRecord where
  id : String
  embedding : Option Embedding
  metadata : Option UpdateMetadata
  document : Option String
  operation : Operation
deriving DecidableEq, Repr

/-- One log entry (`crate::types::LogRecord`). -/
structure LogRecord where
  log_offset : Int
  record : OperationRecord
deriving DecidableEq, Repr

/-- The error enum `LogMaterializerV2Error`.  The record-segment error
payload is irrelevant to the properties below and is left unit-like. -/
inductive LogMaterializerV2Error where
  | metadataMaterializationError (e : MetadataValueConversionError)
  | embeddingMaterializationError
  | recordSegmentError
deriving DecidableEq, Repr

/-- The output unit of the materializer (`MaterializedLogRecordV2`). -/
structure MaterializedLogRecordV2 where
  data_record : Option DataRecord
  offset_id : Nat
  user_id : Option String
  final_operation : Operation
  metadata_to_be_merged : Option Metadata
  final_document : Option String
  final_embedding : Option Embedding
deriving DecidableEq, Repr

/-! ## Association-list tables

The source keeps its two working tables in `HashMap<&str, _>`; these are
the corresponding keyed-list operations. -/

/-- Lookup by key (first match). -/
def alGet {α : Type} : List (String × α) → String → Option α
  | [], _ => none
  | (k', v) :: rest, k => if k' = k then some v else alGet rest k

/-- Key membership (`HashMap::contains_key`). -/
def alContains {α : Type} (l : List (String × α)) (k : String) : Bool :=
  (alGet l k).isSome

/-- Insert-or-replace (`HashMap::insert`). -/
def alInsert {α : Type} : List (String × α) → String → α → List (String × α)
  | [], k, v => [(k, v)]
  | (k', v') :: rest, k, v =>
    if k' = k then (k, v) :: rest else (k', v') :: alInsert rest k v

/-- Remove a key (`HashMap::remove`). -/
def alRemove {α : Type} : List (String × α) → String → List (String × α)
  | [], _ => []
  | (k', v') :: rest, k =>
    if k' = k then alRemove rest k else (k', v') :: alRemove rest k

/-- In-place modification of the entry at a key (`HashMap::get_mut`
followed by field mutation). -/
def alModify {α : Type} : List (String × α) → String → (α → α) → List (String × α)
  | [], _, _ => []
  | (k', v') :: rest, k, f =>
    if k' = k then (k', f v') :: alModify rest k f
    else (k', v') :: alModify rest k f

/-- The keys of a table. -/
def alKeys {α : Type} (l : List (String × α)) : List String := l.map (·.1)

/-- The values of a table, in table order. -/
def alValues {α : Type} (l : List (String × α)) : List α := l.map (·.2)

/-! ## Spec-modelled external collaborators -/

/-- Modelled from the spec: coercion of a patch metadata map to canonical
metadata (`crate::types::update_metdata_to_metdata`, outside the provided
tree).  Converts every value, failing on the first value that has no
canonical representation (the delete marker). -/
def update_metdata_to_metdata :
    UpdateMetadata → Except MetadataValueConversionError Metadata
  | [] => .ok []
  | (k, v) :: rest =>
    match v with
    | .intValue i =>
      match update_metdata_to_metdata rest with
      | .ok m => .ok ((k, MetadataValue.intValue i) :: m)
      | .error e => .error e
    | .strValue s =>
      match update_metdata_to_metdata rest with
      | .ok m => .ok ((k, MetadataValue.strValue s) :: m)
      | .error e => .error e
    | .noneValue => .error .invalidValue

/-- Modelled from the spec: the Metadata Merge Utility
(`crate::types::merge_update_metadata`, outside the provided tree).
Last-writer-wins per key over the base map, tombstoning keys explicitly
set to the delete marker; a `none` patch leaves the base untouched. -/
def merge_update_metadata (base : Option Metadata) (patch : Option UpdateMetadata) :
    Option Metadata :=
  match patch with
  | none => base
  | some p =>
    some (p.foldl
      (fun acc kv =>
        match kv.2 with
        | .noneValue => alRemove acc kv.1
        | .intValue i => alInsert acc kv.1 (MetadataValue.intValue i)
        | .strValue s => alInsert acc kv.1 (MetadataValue.strValue s))
      (base.getD []))

/-- Modelled from the spec: the Segment Lookup Collaborator
(`RecordSegmentReader`, outside the provided tree) as a finite map from
user identifier to the durable record and its offset id.
`data_exists_for_user_id` is `alContains`, and
`get_data_and_offset_id_for_user_id` is `alGet`; the two calls observe
the same snapshot by construction, and read failures are out of scope. -/
abbrev RecordSegmentReader := List (String × DataRecord × Nat)

/-! ## The materialized-record constructors -/

/-- `impl From<(DataRecord, u32)> for MaterializedLogRecordV2`: the entry
created for an identifier found in the record segment (types.rs:94-108).
`final_operation` starts at `Add` as a sentinel. -/
def fromDataRecord (data_record : DataRecord) (offset_id : Nat) :
    MaterializedLogRecordV2 where
  data_record := some data_record
  offset_id := offset_id
  user_id := none
  final_operation := .add
  metadata_to_be_merged := none
  final_document := none
  final_embedding := none

/-- `impl TryFrom<(&OperationRecord, u32, &str)> for MaterializedLogRecordV2`
(types.rs:110-151): the entry created for a first-time insert.  The
metadata patch is coerced first, then the document is taken, and a missing
embedding is an `EmbeddingMaterializationError`. -/
def materializedFromOperation (log_record : OperationRecord) (offset_id : Nat)
    (user_id : String) :
    Except LogMaterializerV2Error MaterializedLogRecordV2 :=
  match (match log_record.metadata with
    | some metadata =>
      match update_metdata_to_metdata metadata with
      | .ok m => Except.ok (some m)
      | .error e =>
        Except.error (LogMaterializerV2Error.metadataMaterializationError e)
    | none => Except.ok none) with
  | .error e => .error e
  | .ok metadata =>
    let document := log_record.document
    match log_record.embedding with
    | some embedding =>
      .ok { data_record := none
            offset_id := offset_id
            user_id := some user_id
            final_operation := .add
            metadata_to_be_merged := metadata
            final_document := document
            final_embedding := some embedding }
    | none => .error .embeddingMaterializationError

/-! ## The durable-origin pass (first loop of `materializeV2`) -/

/-- Result of the durable-origin pass: the "existing" table, plus the
traces of the calls issued to the Segment Lookup Collaborator (one
`data_exists_for_user_id` call per log record; one
`get_data_and_offset_id_for_user_id` call per log record whose id exists
durably). -/
structure DuraResult where
  table : List (String × MaterializedLogRecordV2)
  existsCalls : List String
  lookupCalls : List String
deriving DecidableEq, Repr

/-- One iteration of the first loop of `materializeV2` (types.rs:167-196):
ask the reader whether data exists for the id and, if so, fetch it and
insert the seeded entry into the "existing" table. -/
def duraStep (reader : RecordSegmentReader) (acc : DuraResult) (lr : LogRecord) :
    DuraResult :=
  let uid := lr.record.id
  match alGet reader uid with
  | some (data_record, offset_id) =>
    { table := alInsert acc.table uid (fromDataRecord data_record offset_id)
      existsCalls := acc.existsCalls ++ [uid]
      lookupCalls := acc.lookupCalls ++ [uid] }
  | none =>
    { acc with existsCalls := acc.existsCalls ++ [uid] }

/-- The whole durable-origin pass over the log batch. -/
def duraPass (reader : RecordSegmentReader) (logs : List LogRecord) : DuraResult :=
  logs.foldl (duraStep reader) ⟨[], [], []⟩

/-! ## The replay pass (second loop of `materializeV2`) -/

/-- The private state of one materialization call: the two working tables
and the offset counter (`curr_max_offset_id`, the shared `AtomicU32`,
viewed from this single call). -/
structure MatState where
  existing_id_to_materialized : List (String × MaterializedLogRecordV2)
  new_id_to_materialized : List (String × MaterializedLogRecordV2)
  curr_max_offset_id : Nat
deriving DecidableEq, Repr

/-- The payload effect shared by the Update and Upsert branches
(types.rs:268-279, 292-303, 310-321): merge the metadata patch and
overwrite document/embedding only when the operation supplies one. -/
def updatePayload (r : MaterializedLogRecordV2) (op : OperationRecord) :
    MaterializedLogRecordV2 :=
  { r with
    metadata_to_be_merged := merge_update_metadata r.metadata_to_be_merged op.metadata
    final_document := match op.document with
      | some d => some d
      | none => r.final_document
    final_embedding := match op.embedding with
      | some e => some e
      | none => r.final_embedding }

/-- The Delete effect on an "existing" entry (types.rs:242-246). -/
def deleteEntry (r : MaterializedLogRecordV2) : MaterializedLogRecordV2 :=
  { r with
    final_operation := .delete
    final_document := none
    final_embedding := none
    metadata_to_be_merged := none
    user_id := none }

/-- One iteration of the replay loop of `materializeV2` (types.rs:199-342),
dispatching on the operation kind.  `fetch_add(1)` on the counter returns
the pre-increment value and stores the incremented value reduced modulo
`2 ^ 32` (the counter is a `u32`). -/
def applyLog (st : MatState) (lr : LogRecord) :
    Except LogMaterializerV2Error MatState :=
  let uid := lr.record.id
  match lr.record.operation with
  | .add =>
    if !alContains st.existing_id_to_materialized uid
        && !alContains st.new_id_to_materialized uid then
      let next_offset_id := st.curr_max_offset_id
      match materializedFromOperation lr.record next_offset_id uid with
      | .ok materialized_record =>
        .ok { st with
              new_id_to_materialized :=
                alInsert st.new_id_to_materialized uid materialized_record
              curr_max_offset_id := (st.curr_max_offset_id + 1) % 2 ^ 32 }
      | .error e => .error e
    else
      .ok st
  | .delete =>
    if alContains st.new_id_to_materialized uid then
      .ok { st with
            new_id_to_materialized := alRemove st.new_id_to_materialized uid }
    else if alContains st.existing_id_to_materialized uid then
      .ok { st with
            existing_id_to_materialized :=
              alModify st.existing_id_to_materialized uid deleteEntry }
    else
      .ok st
  | .update =>
    if alContains st.existing_id_to_materialized uid then
      -- `created_in_log = false`: also set `final_operation = Update`.
      .ok { st with
            existing_id_to_materialized :=
              alModify st.existing_id_to_materialized uid
                (fun r => { updatePayload r lr.record with final_operation := .update }) }
    else if alContains st.new_id_to_materialized uid then
      -- `created_in_log = true`: leave `final_operation` untouched.
      .ok { st with
            new_id_to_materialized :=
              alModify st.new_id_to_materialized uid
                (fun r => updatePayload r lr.record) }
    else
      -- Not in either map: ignore this update.
      .ok st
  | .upsert =>
    if alContains st.existing_id_to_materialized uid then
      .ok { st with
            existing_id_to_materialized :=
              alModify st.existing_id_to_materialized uid
                (fun r => { updatePayload r lr.record with final_operation := .upsert }) }
    else if alContains st.new_id_to_materialized uid then
      .ok { st with
            new_id_to_materialized :=
              alModify st.new_id_to_materialized uid
                (fun r => updatePayload r lr.record) }
    else
      -- Insert: same code path as Add.
      let next_offset_id := st.curr_max_offset_id
      match materializedFromOperation lr.record next_offset_id uid with
      | .ok materialized_record =>
        .ok { st with
              new_id_to_materialized :=
                alInsert st.new_id_to_materialized uid materialized_record
              curr_max_offset_id := (st.curr_max_offset_id + 1) % 2 ^ 32 }
      | .error e => .error e

/-- The replay loop over the whole batch, aborting on the first error. -/
def replayLogs (st : MatState) :
    List LogRecord → Except LogMaterializerV2Error MatState
  | [] => .ok st
  | lr :: rest =>
    match applyLog st lr with
    | .ok st' => replayLogs st' rest
    | .error e => .error e

/-- The collection step (types.rs:343-350): existing-table values followed
by new-table values. -/
def collectOutput (st : MatState) : List MaterializedLogRecordV2 :=
  alValues st.existing_id_to_materialized ++ alValues st.new_id_to_materialized

/-- `LogMaterializerV2::materializeV2` (types.rs:160-352): durable-origin
pass, replay pass, collection.  `start` is the value held by
`curr_max_offset_id` when the call begins. -/
def materializeV2 (reader : RecordSegmentReader) (logs : List LogRecord)
    (start : Nat) :
    Except LogMaterializerV2Error (List MaterializedLogRecordV2) :=
  match replayLogs
      { existing_id_to_materialized := (duraPass reader logs).table
        new_id_to_materialized := []
        curr_max_offset_id := start } logs with
  | .ok st => .ok (collectOutput st)
  | .error e => .error e

/-- The initial replay state of one call. -/
def initState (reader : RecordSegmentReader) (logs : List LogRecord)
    (start : Nat) : MatState where
  existing_id_to_materialized := (duraPass reader logs).table
  new_id_to_materialized := []
  curr_max_offset_id := start

/-- A record of the output belongs to the given identifier: either its
durable origin carries that id, or it is a fresh insert whose `user_id`
is that id. -/
def isFor (r : MaterializedLogRecordV2) (uid : String) : Bool :=
  match r.data_record with
  | some d => d.id == uid
  | none =>
    match r.user_id with
    | some u => u == uid
    | none => false

/-- The output records belonging to the given identifier. -/
def recordsFor (out : List MaterializedLogRecordV2) (uid : String) :
    List MaterializedLogRecordV2 :=
  out.filter (fun r => isFor r uid)


/-! ## Association-list lemmas -/

@[simp]
theorem alGet_nil {α : Type} (k : String) : alGet ([] : List (String × α)) k = none := rfl

@[simp]
theorem alGet_cons {α : Type} (a k : String) (v : α) (rest : List (String × α)) :
    alGet ((a, v) :: rest) k = if a = k then some v else alGet rest k := rfl

@[simp]
theorem alInsert_nil {α : Type} (k : String) (v : α) :
    alInsert ([] : List (String × α)) k v = [(k, v)] := rfl

@[simp]
theorem alInsert_cons {α : Type} (a k : String) (v' v : α) (rest : List (String × α)) :
    alInsert ((a, v') :: rest) k v =
      if a = k then (k, v) :: rest else (a, v') :: alInsert rest k v := rfl

@[simp]
theorem alRemove_nil {α : Type} (k : String) : alRemove ([] : List (String × α)) k = [] := rfl

@[simp]
theorem alRemove_cons {α : Type} (a k : String) (v' : α) (rest : List (String × α)) :
    alRemove ((a, v') :: rest) k =
      if a = k then alRemove rest k else (a, v') :: alRemove rest k := rfl

@[simp]
theorem alModify_nil {α : Type} (k : String) (f : α → α) :
    alModify ([] : List (String × α)) k f = [] := rfl

@[simp]
theorem alModify_cons {α : Type} (a k : String) (v' : α) (f : α → α)
    (rest : List (String × α)) :
    alModify ((a, v') :: rest) k f =
      if a = k then (a, f v') :: alModify rest k f
      else (a, v') :: alModify rest k f := rfl

theorem alGet_alInsert_self {α : Type} (l : List (String × α)) (k : String) (v : α) :
    alGet (alInsert l k v) k = some v := by
  induction l with
  | nil => simp
  | cons p rest ih =>
    obtain ⟨a, v'⟩ := p
    by_cases h : a = k
    · simp [h]
    · simp [h, ih]

theorem alGet_alInsert_ne {α : Type} (l : List (String × α)) (k k' : String) (v : α)
    (h : k' ≠ k) : alGet (alInsert l k v) k' = alGet l k' := by
  induction l with
  | nil => simp [Ne.symm h]
  | cons p rest ih =>
    obtain ⟨a, v'⟩ := p
    by_cases ha : a = k
    · subst ha
      simp [Ne.symm h]
    · simp [ha, ih]

theorem alGet_alRemove_self {α : Type} (l : List (String × α)) (k : String) :
    alGet (alRemove l k) k = none := by
  induction l with
  | nil => simp
  | cons p rest ih =>
    obtain ⟨a, v'⟩ := p
    by_cases h : a = k
    · simp [h, ih]
    · simp [h, ih]

theorem alGet_alRemove_ne {α : Type} (l : List (String × α)) (k k' : String)
    (h : k' ≠ k) : alGet (alRemove l k) k' = alGet l k' := by
  induction l with
  | nil => simp
  | cons p rest ih =>
    obtain ⟨a, v'⟩ := p
    by_cases ha : a = k
    · subst ha
      simp [Ne.symm h, ih]
    · simp [ha, ih]

theorem alGet_alModify_self {α : Type} (l : List (String × α)) (k : String)
    (f : α → α) : alGet (alModify l k f) k = (alGet l k).map f := by
  induction l with
  | nil => simp
  | cons p rest ih =>
    obtain ⟨a, v'⟩ := p
    by_cases h : a = k
    · simp [h]
    · simp [h, ih]

theorem alGet_alModify_ne {α : Type} (l : List (String × α)) (k k' : String)
    (f : α → α) (h : k' ≠ k) : alGet (alModify l k f) k' = alGet l k' := by
  induction l with
  | nil => simp
  | cons p rest ih =>
    obtain ⟨a, v'⟩ := p
    by_cases ha : a = k
    · subst ha
      simp [Ne.symm h, ih]
    · simp [ha, ih]

theorem alModify_eq_map {α : Type} (l : List (String × α)) (k : String) (f : α → α) :
    alModify l k f = l.map (fun q => (q.1, if q.1 = k then f q.2 else q.2)) := by
  induction l with
  | nil => simp
  | cons p rest ih =>
    obtain ⟨a, v'⟩ := p
    by_cases h : a = k
    · simp [h, ih]
    · simp [h, ih]

theorem mem_alRemove {α : Type} (l : List (String × α)) (k : String)
    (p : String × α) : p ∈ alRemove l k ↔ p ∈ l ∧ p.1 ≠ k := by
  induction l with
  | nil => simp
  | cons q rest ih =>
    obtain ⟨a, v'⟩ := q
    by_cases h : a = k
    · subst h
      rw [alRemove_cons, if_pos rfl, ih]
      simp only [List.mem_cons]
      constructor
      · rintro ⟨hm, hne⟩
        exact ⟨Or.inr hm, hne⟩
      · rintro ⟨rfl | hm, hne⟩
        · exact absurd rfl hne
        · exact ⟨hm, hne⟩
    · rw [alRemove_cons, if_neg h]
      simp only [List.mem_cons, ih]
      constructor
      · rintro (rfl | ⟨hm, hne⟩)
        · exact ⟨Or.inl rfl, h⟩
        · exact ⟨Or.inr hm, hne⟩
      · rintro ⟨rfl | hm, hne⟩
        · exact Or.inl rfl
        · exact Or.inr ⟨hm, hne⟩

theorem mem_alInsert {α : Type} (l : List (String × α)) (k : String) (v : α)
    (p : String × α) (hp : p ∈ alInsert l k v) : p ∈ l ∨ p = (k, v) := by
  induction l with
  | nil =>
    rw [alInsert_nil] at hp
    simp at hp
    exact Or.inr hp
  | cons q rest ih =>
    obtain ⟨a, v'⟩ := q
    by_cases h : a = k
    · rw [alInsert_cons, if_pos h, List.mem_cons] at hp
      rcases hp with rfl | hp'
      · exact Or.inr rfl
      · exact Or.inl (List.mem_cons_of_mem _ hp')
    · rw [alInsert_cons, if_neg h, List.mem_cons] at hp
      rcases hp with rfl | hp'
      · exact Or.inl (List.mem_cons_self _ _)
      · rcases ih hp' with hm | he
        · exact Or.inl (List.mem_cons_of_mem _ hm)
        · exact Or.inr he

theorem alContains_iff_mem_keys {α : Type} (l : List (String × α)) (k : String) :
    alContains l k = true ↔ k ∈ alKeys l := by
  induction l with
  | nil => simp [alContains, alKeys]
  | cons q rest ih =>
    obtain ⟨a, v'⟩ := q
    rw [alContains] at ih ⊢
    by_cases h : a = k
    · simp [alKeys, h]
    · simp only [alGet_cons, if_neg h, alKeys, List.map_cons, List.mem_cons, ih, alKeys]
      exact ⟨Or.inr, fun hm => hm.resolve_left (fun he => h he.symm)⟩

theorem alGet_mem {α : Type} (l : List (String × α)) (k : String) (v : α)
    (h : alGet l k = some v) : (k, v) ∈ l := by
  induction l with
  | nil => simp at h
  | cons q rest ih =>
    obtain ⟨a, v'⟩ := q
    by_cases ha : a = k
    · subst ha
      rw [alGet_cons, if_pos rfl] at h
      obtain rfl := Option.some_injective _ h
      exact List.mem_cons_self _ _
    · rw [alGet_cons, if_neg ha] at h
      exact List.mem_cons_of_mem _ (ih h)

theorem alGet_eq_none_of_not_contains {α : Type} (l : List (String × α)) (k : String)
    (h : alContains l k = false) : alGet l k = none := by
  rw [alContains] at h
  exact Option.not_isSome_iff_eq_none.mp (by simp [h])

theorem alKeys_alInsert_not_contains {α : Type} (l : List (String × α)) (k : String)
    (v : α) (h : alContains l k = false) :
    alKeys (alInsert l k v) = alKeys l ++ [k] := by
  induction l with
  | nil => simp [alKeys]
  | cons q rest ih =>
    obtain ⟨a, v'⟩ := q
    rw [alContains, alGet_cons] at h
    by_cases ha : a = k
    · rw [if_pos ha] at h
      simp at h
    · rw [if_neg ha] at h
      rw [alInsert_cons, if_neg ha]
      simp only [alKeys, List.map_cons, List.cons_append, List.cons.injEq, true_and]
      exact ih h

theorem alKeys_alModify {α : Type} (l : List (String × α)) (k : String) (f : α → α) :
    alKeys (alModify l k f) = alKeys l := by
  rw [alModify_eq_map]
  simp [alKeys]

theorem alRemove_sublist {α : Type} (l : List (String × α)) (k : String) :
    (alRemove l k).Sublist l := by
  induction l with
  | nil => simp
  | cons q rest ih =>
    obtain ⟨a, v'⟩ := q
    by_cases h : a = k
    · rw [alRemove_cons, if_pos h]
      exact ih.cons _
    · rw [alRemove_cons, if_neg h]
      exact ih.cons₂ _

theorem alContains_alRemove {α : Type} (l : List (String × α)) (k k' : String) :
    alContains (alRemove l k) k' = if k' = k then false else alContains l k' := by
  by_cases h : k' = k
  · simp [alContains, h, alGet_alRemove_self]
  · simp [alContains, h, alGet_alRemove_ne l k k' h]

theorem alContains_alModify {α : Type} (l : List (String × α)) (k k' : String)
    (f : α → α) : alContains (alModify l k f) k' = alContains l k' := by
  by_cases h : k' = k
  · subst h
    simp [alContains, alGet_alModify_self]
  · simp [alContains, alGet_alModify_ne l k k' f h]

theorem alContains_alInsert {α : Type} (l : List (String × α)) (k k' : String)
    (v : α) : alContains (alInsert l k v) k' = if k' = k then true else alContains l k' := by
  by_cases h : k' = k
  · subst h
    simp [alContains, alGet_alInsert_self]
  · simp [alContains, h, alGet_alInsert_ne l k k' v h]

theorem alInsert_not_contains {α : Type} (l : List (String × α)) (k : String)
    (v : α) (h : alContains l k = false) : alInsert l k v = l ++ [(k, v)] := by
  induction l with
  | nil => simp
  | cons q rest ih =>
    obtain ⟨a, v'⟩ := q
    rw [alContains, alGet_cons] at h
    by_cases ha : a = k
    · rw [if_pos ha] at h
      simp at h
    · rw [if_neg ha] at h
      rw [alInsert_cons, if_neg ha, List.cons_append]
      rw [ih h]

/-- `(l.map f).Nodup` expressed as pairwise distinct images. -/
theorem nodup_map_iff_pairwise {α β : Type} (l : List α) (f : α → β) :
    (l.map f).Nodup ↔ l.Pairwise (fun a b => f a ≠ f b) := by
  induction l with
  | nil => simp
  | cons a rest ih =>
    simp only [List.map_cons, List.nodup_cons, List.pairwise_cons, List.mem_map, ih]
    constructor
    · rintro ⟨hn, hp⟩
      exact ⟨fun b hb he => hn ⟨b, hb, he.symm⟩, hp⟩
    · rintro ⟨hn, hp⟩
      refine ⟨?_, hp⟩
      rintro ⟨b, hb, he⟩
      exact hn b hb he.symm

/-! ## Shape invariants of the replay state -/

/-- A well-formed "existing"-table entry: its durable origin and offset id
are exactly what the reader holds for its key, and it carries no user id. -/
abbrev existingEntryOk (reader : RecordSegmentReader) (k : String)
    (r : MaterializedLogRecordV2) : Prop :=
  (alGet reader k).map (fun p => p.1) = r.data_record ∧
  (alGet reader k).map (fun p => p.2) = some r.offset_id ∧
  r.user_id = none

/-- A well-formed "new"-table entry: a fresh insert for its key, with no
durable origin, `final_operation` still `Add`, and an embedding present. -/
abbrev newEntryOk (k : String) (r : MaterializedLogRecordV2) : Prop :=
  r.data_record = none ∧ r.user_id = some k ∧
  r.final_operation = Operation.add ∧ r.final_embedding.isSome = true

/-- The basic shape invariant of a replay state: both tables have distinct
keys, the tables are key-disjoint, and every entry is well formed for its
table. -/
abbrev InvBasic (reader : RecordSegmentReader) (st : MatState) : Prop :=
  (alKeys st.existing_id_to_materialized).Nodup ∧
  (alKeys st.new_id_to_materialized).Nodup ∧
  (∀ p ∈ st.existing_id_to_materialized,
    alContains st.new_id_to_materialized p.1 = false) ∧
  (∀ p ∈ st.existing_id_to_materialized, existingEntryOk reader p.1 p.2) ∧
  (∀ p ∈ st.new_id_to_materialized, newEntryOk p.1 p.2)

/-- The offset invariant of a replay state: every "new"-table entry's
offset lies in `[start, counter)` and those offsets are pairwise
distinct. -/
abbrev InvOffsets (start : Nat) (st : MatState) : Prop :=
  (∀ p ∈ st.new_id_to_materialized,
    start ≤ p.2.offset_id ∧ p.2.offset_id < st.curr_max_offset_id) ∧
  (st.new_id_to_materialized.map (fun p => p.2.offset_id)).Nodup ∧
  start ≤ st.curr_max_offset_id

/-- The reader maps every identifier to a record carrying that same
identifier (a basic consistency property of the durable segment). -/
abbrev readerIdsOk (reader : RecordSegmentReader) : Prop :=
  ∀ p ∈ reader, p.2.1.id = p.1

/-- The metadata patch of an operation (if any) coerces successfully. -/
def coercionOk : Option UpdateMetadata → Bool
  | none => true
  | some um =>
    match update_metdata_to_metdata um with
    | .ok _ => true
    | .error _ => false

theorem materializedFromOperation_ok (op : OperationRecord) (o : Nat)
    (uid : String) (r : MaterializedLogRecordV2)
    (h : materializedFromOperation op o uid = .ok r) :
    r.data_record = none ∧ r.offset_id = o ∧ r.user_id = some uid ∧
    r.final_operation = Operation.add ∧ r.final_document = op.document ∧
    r.final_embedding = op.embedding ∧ r.final_embedding.isSome = true := by
  unfold materializedFromOperation at h
  split at h
  · simp at h
  · split at h
    · rename_i emb heq
      simp only [Except.ok.injEq] at h
      subst h
      simp [heq]
    · simp at h

theorem materializedFromOperation_missing_embedding (op : OperationRecord)
    (o : Nat) (uid : String) (hc : coercionOk op.metadata = true)
    (he : op.embedding = none) :
    materializedFromOperation op o uid = .error .embeddingMaterializationError := by
  unfold materializedFromOperation
  rcases hop : op.metadata with _ | um
  · simp only [hop, he]
  · rw [hop] at hc
    simp only [coercionOk] at hc
    cases hu : update_metdata_to_metdata um with
    | error e =>
      rw [hu] at hc
      simp at hc
    | ok m =>
      simp only [hop, hu, he]

/-! ## Branch equations for `applyLog` -/

theorem applyLog_add_insert (st : MatState) (lr : LogRecord)
    (hop : lr.record.operation = .add)
    (hex : alContains st.existing_id_to_materialized lr.record.id = false)
    (hnew : alContains st.new_id_to_materialized lr.record.id = false) :
    applyLog st lr =
      match materializedFromOperation lr.record st.curr_max_offset_id lr.record.id with
      | .ok r =>
        .ok { st with
              new_id_to_materialized :=
                alInsert st.new_id_to_materialized lr.record.id r
              curr_max_offset_id := (st.curr_max_offset_id + 1) % 2 ^ 32 }
      | .error e => .error e := by
  simp [applyLog, hop, hex, hnew]

theorem applyLog_add_skip_existing (st : MatState) (lr : LogRecord)
    (hop : lr.record.operation = .add)
    (hex : alContains st.existing_id_to_materialized lr.record.id = true) :
    applyLog st lr = .ok st := by
  simp [applyLog, hop, hex]

theorem applyLog_add_skip_new (st : MatState) (lr : LogRecord)
    (hop : lr.record.operation = .add)
    (hnew : alContains st.new_id_to_materialized lr.record.id = true) :
    applyLog st lr = .ok st := by
  simp [applyLog, hop, hnew]

theorem applyLog_delete_new (st : MatState) (lr : LogRecord)
    (hop : lr.record.operation = .delete)
    (hnew : alContains st.new_id_to_materialized lr.record.id = true) :
    applyLog st lr =
      .ok { st with
            new_id_to_materialized :=
              alRemove st.new_id_to_materialized lr.record.id } := by
  simp [applyLog, hop, hnew]

theorem applyLog_delete_existing (st : MatState) (lr : LogRecord)
    (hop : lr.record.operation = .delete)
    (hnew : alContains st.new_id_to_materialized lr.record.id = false)
    (hex : alContains st.existing_id_to_materialized lr.record.id = true) :
    applyLog st lr =
      .ok { st with
            existing_id_to_materialized :=
              alModify st.existing_id_to_materialized lr.record.id deleteEntry } := by
  simp [applyLog, hop, hnew, hex]

theorem applyLog_delete_none (st : MatState) (lr : LogRecord)
    (hop : lr.record.operation = .delete)
    (hnew : alContains st.new_id_to_materialized lr.record.id = false)
    (hex : alContains st.existing_id_to_materialized lr.record.id = false) :
    applyLog st lr = .ok st := by
  simp [applyLog, hop, hnew, hex]

theorem applyLog_update_existing (st : MatState) (lr : LogRecord)
    (hop : lr.record.operation = .update)
    (hex : alContains st.existing_id_to_materialized lr.record.id = true) :
    applyLog st lr =
      .ok { st with
            existing_id_to_materialized :=
              alModify st.existing_id_to_materialized lr.record.id
                (fun r => { updatePayload r lr.record with final_operation := .update }) } := by
  simp [applyLog, hop, hex]

theorem applyLog_update_new (st : MatState) (lr : LogRecord)
    (hop : lr.record.operation = .update)
    (hex : alContains st.existing_id_to_materialized lr.record.id = false)
    (hnew : alContains st.new_id_to_materialized lr.record.id = true) :
    applyLog st lr =
      .ok { st with
            new_id_to_materialized :=
              alModify st.new_id_to_materialized lr.record.id
                (fun r => updatePayload r lr.record) } := by
  simp [applyLog, hop, hex, hnew]

theorem applyLog_update_none (st : MatState) (lr : LogRecord)
    (hop : lr.record.operation = .update)
    (hex : alContains st.existing_id_to_materialized lr.record.id = false)
    (hnew : alContains st.new_id_to_materialized lr.record.id = false) :
    applyLog st lr = .ok st := by
  simp [applyLog, hop, hex, hnew]

theorem applyLog_upsert_existing (st : MatState) (lr : LogRecord)
    (hop : lr.record.operation = .upsert)
    (hex : alContains st.existing_id_to_materialized lr.record.id = true) :
    applyLog st lr =
      .ok { st with
            existing_id_to_materialized :=
              alModify st.existing_id_to_materialized lr.record.id
                (fun r => { updatePayload r lr.record with final_operation := .upsert }) } := by
  simp [applyLog, hop, hex]

theorem applyLog_upsert_new (st : MatState) (lr : LogRecord)
    (hop : lr.record.operation = .upsert)
    (hex : alContains st.existing_id_to_materialized lr.record.id = false)
    (hnew : alContains st.new_id_to_materialized lr.record.id = true) :
    applyLog st lr =
      .ok { st with
            new_id_to_materialized :=
              alModify st.new_id_to_materialized lr.record.id
                (fun r => updatePayload r lr.record) } := by
  simp [applyLog, hop, hex, hnew]

theorem applyLog_upsert_insert (st : MatState) (lr : LogRecord)
    (hop : lr.record.operation = .upsert)
    (hex : alContains st.existing_id_to_materialized lr.record.id = false)
    (hnew : alContains st.new_id_to_materialized lr.record.id = false) :
    applyLog st lr =
      match materializedFromOperation lr.record st.curr_max_offset_id lr.record.id with
      | .ok r =>
        .ok { st with
              new_id_to_materialized :=
                alInsert st.new_id_to_materialized lr.record.id r
              curr_max_offset_id := (st.curr_max_offset_id + 1) % 2 ^ 32 }
      | .error e => .error e := by
  simp [applyLog, hop, hex, hnew]

/-! ## Field equations for the entry transformers -/

@[simp]
theorem updatePayload_data_record (r : MaterializedLogRecordV2) (op : OperationRecord) :
    (updatePayload r op).data_record = r.data_record := rfl

@[simp]
theorem updatePayload_offset_id (r : MaterializedLogRecordV2) (op : OperationRecord) :
    (updatePayload r op).offset_id = r.offset_id := rfl

@[simp]
theorem updatePayload_user_id (r : MaterializedLogRecordV2) (op : OperationRecord) :
    (updatePayload r op).user_id = r.user_id := rfl

@[simp]
theorem updatePayload_final_operation (r : MaterializedLogRecordV2) (op : OperationRecord) :
    (updatePayload r op).final_operation = r.final_operation := rfl

@[simp]
theorem updatePayload_metadata (r : MaterializedLogRecordV2) (op : OperationRecord) :
    (updatePayload r op).metadata_to_be_merged =
      merge_update_metadata r.metadata_to_be_merged op.metadata := rfl

theorem updatePayload_final_embedding_isSome (r : MaterializedLogRecordV2)
    (op : OperationRecord) (h : r.final_embedding.isSome = true) :
    (updatePayload r op).final_embedding.isSome = true := by
  rcases he : op.embedding with _ | e
  · simpa [updatePayload, he] using h
  · simp [updatePayload, he]

@[simp]
theorem deleteEntry_data_record (r : MaterializedLogRecordV2) :
    (deleteEntry r).data_record = r.data_record := rfl

@[simp]
theorem deleteEntry_offset_id (r : MaterializedLogRecordV2) :
    (deleteEntry r).offset_id = r.offset_id := rfl

@[simp]
theorem deleteEntry_user_id (r : MaterializedLogRecordV2) :
    (deleteEntry r).user_id = none := rfl

theorem existingEntryOk_deleteEntry (reader : RecordSegmentReader) (k : String)
    (r : MaterializedLogRecordV2) (h : existingEntryOk reader k r) :
    existingEntryOk reader k (deleteEntry r) := by
  obtain ⟨h1, h2, h3⟩ := h
  exact ⟨by simpa using h1, by simpa using h2, rfl⟩

theorem existingEntryOk_updatePayload (reader : RecordSegmentReader) (k : String)
    (r : MaterializedLogRecordV2) (op : OperationRecord)
    (h : existingEntryOk reader k r) :
    existingEntryOk reader k (updatePayload r op) := by
  obtain ⟨h1, h2, h3⟩ := h
  exact ⟨by simpa using h1, by simpa using h2, by simpa using h3⟩

theorem existingEntryOk_set_operation (reader : RecordSegmentReader) (k : String)
    (r : MaterializedLogRecordV2) (o : Operation)
    (h : existingEntryOk reader k r) :
    existingEntryOk reader k { r with final_operation := o } := by
  obtain ⟨h1, h2, h3⟩ := h
  exact ⟨by simpa using h1, by simpa using h2, by simpa using h3⟩

theorem newEntryOk_updatePayload (k : String) (r : MaterializedLogRecordV2)
    (op : OperationRecord) (h : newEntryOk k r) :
    newEntryOk k (updatePayload r op) := by
  obtain ⟨h1, h2, h3, h4⟩ := h
  exact ⟨by simpa using h1, by simpa using h2, by simpa using h3,
    updatePayload_final_embedding_isSome r op h4⟩

/-! ## Preservation of the shape invariant by each state shape -/

theorem invb_modify_existing (reader : RecordSegmentReader) (st : MatState)
    (uid : String) (f : MaterializedLogRecordV2 → MaterializedLogRecordV2)
    (hf : ∀ k r, existingEntryOk reader k r → existingEntryOk reader k (f r))
    (hinv : InvBasic reader st) :
    InvBasic reader
      { st with existing_id_to_materialized :=
          alModify st.existing_id_to_materialized uid f } := by
  obtain ⟨hexN, hnewN, hdisj, hexOk, hnewOk⟩ := hinv
  refine ⟨by rw [alKeys_alModify]; exact hexN, hnewN, ?_, ?_, hnewOk⟩
  · intro p hp
    rw [alModify_eq_map] at hp
    obtain ⟨q, hq, rfl⟩ := List.mem_map.mp hp
    exact hdisj q hq
  · intro p hp
    rw [alModify_eq_map] at hp
    obtain ⟨q, hq, rfl⟩ := List.mem_map.mp hp
    by_cases hk : q.1 = uid
    · simpa [hk] using hf q.1 q.2 (hexOk q hq)
    · simpa [hk] using hexOk q hq

theorem invb_modify_new (reader : RecordSegmentReader) (st : MatState)
    (uid : String) (f : MaterializedLogRecordV2 → MaterializedLogRecordV2)
    (hf : ∀ k r, newEntryOk k r → newEntryOk k (f r))
    (hinv : InvBasic reader st) :
    InvBasic reader
      { st with new_id_to_materialized :=
          alModify st.new_id_to_materialized uid f } := by
  obtain ⟨hexN, hnewN, hdisj, hexOk, hnewOk⟩ := hinv
  refine ⟨hexN, by rw [alKeys_alModify]; exact hnewN, ?_, hexOk, ?_⟩
  · intro p hp
    rw [alContains_alModify]
    exact hdisj p hp
  · intro p hp
    rw [alModify_eq_map] at hp
    obtain ⟨q, hq, rfl⟩ := List.mem_map.mp hp
    by_cases hk : q.1 = uid
    · simpa [hk] using hf q.1 q.2 (hnewOk q hq)
    · simpa [hk] using hnewOk q hq

theorem invb_remove_new (reader : RecordSegmentReader) (st : MatState)
    (uid : String) (hinv : InvBasic reader st) :
    InvBasic reader
      { st with new_id_to_materialized :=
          alRemove st.new_id_to_materialized uid } := by
  obtain ⟨hexN, hnewN, hdisj, hexOk, hnewOk⟩ := hinv
  refine ⟨hexN, ?_, ?_, hexOk, ?_⟩
  · exact hnewN.sublist (List.Sublist.map _ (alRemove_sublist _ _))
  · intro p hp
    rw [alContains_alRemove]
    by_cases hk : p.1 = uid
    · simp [hk]
    · simpa [hk] using hdisj p hp
  · intro p hp
    exact hnewOk p ((mem_alRemove _ _ _).mp hp).1

theorem invb_insert_new (reader : RecordSegmentReader) (st : MatState)
    (uid : String) (r : MaterializedLogRecordV2)
    (hex : alContains st.existing_id_to_materialized uid = false)
    (hnew : alContains st.new_id_to_materialized uid = false)
    (hr : newEntryOk uid r) (hinv : InvBasic reader st) (n : Nat) :
    InvBasic reader
      { st with
        new_id_to_materialized := alInsert st.new_id_to_materialized uid r
        curr_max_offset_id := n } := by
  obtain ⟨hexN, hnewN, hdisj, hexOk, hnewOk⟩ := hinv
  refine ⟨hexN, ?_, ?_, hexOk, ?_⟩
  · rw [alKeys_alInsert_not_contains _ _ _ hnew, List.nodup_append]
    refine ⟨hnewN, List.nodup_singleton _, ?_⟩
    intro a ha hb
    rw [List.mem_singleton] at hb
    subst hb
    rw [← alContains_iff_mem_keys] at ha
    rw [ha] at hnew
    cases hnew
  · intro p hp
    have hpk : p.1 ≠ uid := by
      intro he
      have : alContains st.existing_id_to_materialized p.1 = true :=
        (alContains_iff_mem_keys _ _).mpr (List.mem_map_of_mem _ hp)
      rw [he, hex] at this
      cases this
    rw [alContains_alInsert, if_neg hpk]
    exact hdisj p hp
  · intro p hp
    rcases mem_alInsert _ _ _ _ hp with hm | he
    · exact hnewOk p hm
    · subst he
      exact hr

theorem applyLog_inv_basic (reader : RecordSegmentReader) (st st' : MatState)
    (lr : LogRecord) (hinv : InvBasic reader st)
    (h : applyLog st lr = .ok st') : InvBasic reader st' := by
  cases hop : lr.record.operation with
  | add =>
    by_cases hex : alContains st.existing_id_to_materialized lr.record.id = true
    · rw [applyLog_add_skip_existing st lr hop hex] at h
      injection h with h
      subst h
      exact hinv
    · have hex' : alContains st.existing_id_to_materialized lr.record.id = false := by
        simpa using hex
      by_cases hnew : alContains st.new_id_to_materialized lr.record.id = true
      · rw [applyLog_add_skip_new st lr hop hnew] at h
        injection h with h
        subst h
        exact hinv
      · have hnew' : alContains st.new_id_to_materialized lr.record.id = false := by
          simpa using hnew
        rw [applyLog_add_insert st lr hop hex' hnew'] at h
        cases hmat : materializedFromOperation lr.record st.curr_max_offset_id
            lr.record.id with
        | error e =>
          rw [hmat] at h
          cases h
        | ok r =>
          rw [hmat] at h
          injection h with h
          subst h
          obtain ⟨h1, h2, h3, h4, h5, h6, h7⟩ :=
            materializedFromOperation_ok _ _ _ _ hmat
          exact invb_insert_new reader st _ r hex' hnew' ⟨h1, h3, h4, h7⟩ hinv _
  | delete =>
    by_cases hnew : alContains st.new_id_to_materialized lr.record.id = true
    · rw [applyLog_delete_new st lr hop hnew] at h
      injection h with h
      subst h
      exact invb_remove_new reader st _ hinv
    · have hnew' : alContains st.new_id_to_materialized lr.record.id = false := by
        simpa using hnew
      by_cases hex : alContains st.existing_id_to_materialized lr.record.id = true
      · rw [applyLog_delete_existing st lr hop hnew' hex] at h
        injection h with h
        subst h
        exact invb_modify_existing reader st _ deleteEntry
          (fun k r hr => existingEntryOk_deleteEntry reader k r hr) hinv
      · have hex' : alContains st.existing_id_to_materialized lr.record.id = false := by
          simpa using hex
        rw [applyLog_delete_none st lr hop hnew' hex'] at h
        injection h with h
        subst h
        exact hinv
  | update =>
    by_cases hex : alContains st.existing_id_to_materialized lr.record.id = true
    · rw [applyLog_update_existing st lr hop hex] at h
      injection h with h
      subst h
      exact invb_modify_existing reader st _ _
        (fun k r hr => existingEntryOk_set_operation reader k _ _
          (existingEntryOk_updatePayload reader k r lr.record hr)) hinv
    · have hex' : alContains st.existing_id_to_materialized lr.record.id = false := by
        simpa using hex
      by_cases hnew : alContains st.new_id_to_materialized lr.record.id = true
      · rw [applyLog_update_new st lr hop hex' hnew] at h
        injection h with h
        subst h
        exact invb_modify_new reader st _ _
          (fun k r hr => newEntryOk_updatePayload k r lr.record hr) hinv
      · have hnew' : alContains st.new_id_to_materialized lr.record.id = false := by
          simpa using hnew
        rw [applyLog_update_none st lr hop hex' hnew'] at h
        injection h with h
        subst h
        exact hinv
  | upsert =>
    by_cases hex : alContains st.existing_id_to_materialized lr.record.id = true
    · rw [applyLog_upsert_existing st lr hop hex] at h
      injection h with h
      subst h
      exact invb_modify_existing reader st _ _
        (fun k r hr => existingEntryOk_set_operation reader k _ _
          (existingEntryOk_updatePayload reader k r lr.record hr)) hinv
    · have hex' : alContains st.existing_id_to_materialized lr.record.id = false := by
        simpa using hex
      by_cases hnew : alContains st.new_id_to_materialized lr.record.id = true
      · rw [applyLog_upsert_new st lr hop hex' hnew] at h
        injection h with h
        subst h
        exact invb_modify_new reader st _ _
          (fun k r hr => newEntryOk_updatePayload k r lr.record hr) hinv
      · have hnew' : alContains st.new_id_to_materialized lr.record.id = false := by
          simpa using hnew
        rw [applyLog_upsert_insert st lr hop hex' hnew'] at h
        cases hmat : materializedFromOperation lr.record st.curr_max_offset_id
            lr.record.id with
        | error e =>
          rw [hmat] at h
          cases h
        | ok r =>
          rw [hmat] at h
          injection h with h
          subst h
          obtain ⟨h1, h2, h3, h4, h5, h6, h7⟩ :=
            materializedFromOperation_ok _ _ _ _ hmat
          exact invb_insert_new reader st _ r hex' hnew' ⟨h1, h3, h4, h7⟩ hinv _

/-- Every successful `applyLog` step produces one of five state shapes:
unchanged, insert into "new", remove from "new", in-place modification of
the "existing" entry, or in-place payload modification of the "new"
entry. -/
theorem applyLog_ok_shape (st st' : MatState) (lr : LogRecord)
    (h : applyLog st lr = .ok st') :
    st' = st ∨
    (∃ r, materializedFromOperation lr.record st.curr_max_offset_id lr.record.id = .ok r ∧
      alContains st.existing_id_to_materialized lr.record.id = false ∧
      alContains st.new_id_to_materialized lr.record.id = false ∧
      (lr.record.operation = Operation.add ∨ lr.record.operation = Operation.upsert) ∧
      st' = { st with
              new_id_to_materialized :=
                alInsert st.new_id_to_materialized lr.record.id r
              curr_max_offset_id := (st.curr_max_offset_id + 1) % 2 ^ 32 }) ∨
    (lr.record.operation = Operation.delete ∧
      st' = { st with
              new_id_to_materialized := alRemove st.new_id_to_materialized lr.record.id }) ∨
    (∃ f, (f = deleteEntry ∨
           f = (fun r => { updatePayload r lr.record with final_operation := Operation.update }) ∨
           f = (fun r => { updatePayload r lr.record with final_operation := Operation.upsert })) ∧
      st' = { st with
              existing_id_to_materialized :=
                alModify st.existing_id_to_materialized lr.record.id f }) ∨
    ((lr.record.operation = Operation.update ∨ lr.record.operation = Operation.upsert) ∧
      st' = { st with
              new_id_to_materialized :=
                alModify st.new_id_to_materialized lr.record.id
                  (fun r => updatePayload r lr.record) }) := by
  cases hop : lr.record.operation with
  | add =>
    by_cases hex : alContains st.existing_id_to_materialized lr.record.id = true
    · rw [applyLog_add_skip_existing st lr hop hex] at h
      injection h with h
      exact Or.inl h.symm
    · have hex' : alContains st.existing_id_to_materialized lr.record.id = false := by
        simpa using hex
      by_cases hnew : alContains st.new_id_to_materialized lr.record.id = true
      · rw [applyLog_add_skip_new st lr hop hnew] at h
        injection h with h
        exact Or.inl h.symm
      · have hnew' : alContains st.new_id_to_materialized lr.record.id = false := by
          simpa using hnew
        rw [applyLog_add_insert st lr hop hex' hnew'] at h
        cases hmat : materializedFromOperation lr.record st.curr_max_offset_id
            lr.record.id with
        | error e =>
          rw [hmat] at h
          cases h
        | ok r =>
          rw [hmat] at h
          injection h with h
          exact Or.inr (Or.inl ⟨r, rfl, hex', hnew', Or.inl rfl, h.symm⟩)
  | delete =>
    by_cases hnew : alContains st.new_id_to_materialized lr.record.id = true
    · rw [applyLog_delete_new st lr hop hnew] at h
      injection h with h
      exact Or.inr (Or.inr (Or.inl ⟨rfl, h.symm⟩))
    · have hnew' : alContains st.new_id_to_materialized lr.record.id = false := by
        simpa using hnew
      by_cases hex : alContains st.existing_id_to_materialized lr.record.id = true
      · rw [applyLog_delete_existing st lr hop hnew' hex] at h
        injection h with h
        exact Or.inr (Or.inr (Or.inr (Or.inl ⟨deleteEntry, Or.inl rfl, h.symm⟩)))
      · have hex' : alContains st.existing_id_to_materialized lr.record.id = false := by
          simpa using hex
        rw [applyLog_delete_none st lr hop hnew' hex'] at h
        injection h with h
        exact Or.inl h.symm
  | update =>
    by_cases hex : alContains st.existing_id_to_materialized lr.record.id = true
    · rw [applyLog_update_existing st lr hop hex] at h
      injection h with h
      exact Or.inr (Or.inr (Or.inr (Or.inl ⟨_, Or.inr (Or.inl rfl), h.symm⟩)))
    · have hex' : alContains st.existing_id_to_materialized lr.record.id = false := by
        simpa using hex
      by_cases hnew : alContains st.new_id_to_materialized lr.record.id = true
      · rw [applyLog_update_new st lr hop hex' hnew] at h
        injection h with h
        exact Or.inr (Or.inr (Or.inr (Or.inr ⟨Or.inl rfl, h.symm⟩)))
      · have hnew' : alContains st.new_id_to_materialized lr.record.id = false := by
          simpa using hnew
        rw [applyLog_update_none st lr hop hex' hnew'] at h
        injection h with h
        exact Or.inl h.symm
  | upsert =>
    by_cases hex : alContains st.existing_id_to_materialized lr.record.id = true
    · rw [applyLog_upsert_existing st lr hop hex] at h
      injection h with h
      exact Or.inr (Or.inr (Or.inr (Or.inl ⟨_, Or.inr (Or.inr rfl), h.symm⟩)))
    · have hex' : alContains st.existing_id_to_materialized lr.record.id = false := by
        simpa using hex
      by_cases hnew : alContains st.new_id_to_materialized lr.record.id = true
      · rw [applyLog_upsert_new st lr hop hex' hnew] at h
        injection h with h
        exact Or.inr (Or.inr (Or.inr (Or.inr ⟨Or.inr rfl, h.symm⟩)))
      · have hnew' : alContains st.new_id_to_materialized lr.record.id = false := by
          simpa using hnew
        rw [applyLog_upsert_insert st lr hop hex' hnew'] at h
        cases hmat : materializedFromOperation lr.record st.curr_max_offset_id
            lr.record.id with
        | error e =>
          rw [hmat] at h
          cases h
        | ok r =>
          rw [hmat] at h
          injection h with h
          exact Or.inr (Or.inl ⟨r, rfl, hex', hnew', Or.inr rfl, h.symm⟩)

/-- A replay step never adds or removes keys of the "existing" table. -/
theorem applyLog_existing_keys (st st' : MatState) (lr : LogRecord)
    (h : applyLog st lr = .ok st') :
    alKeys st'.existing_id_to_materialized = alKeys st.existing_id_to_materialized := by
  rcases applyLog_ok_shape st st' lr h with rfl | ⟨r, _, _, _, _, rfl⟩ | ⟨_, rfl⟩ | ⟨f, _, rfl⟩ | ⟨_, rfl⟩
  · rfl
  · rfl
  · rfl
  · exact alKeys_alModify _ _ _
  · rfl

/-- A replay step for one identifier leaves every other identifier's
entries in both tables untouched. -/
theorem applyLog_frame (st st' : MatState) (lr : LogRecord) (k : String)
    (hne : lr.record.id ≠ k) (h : applyLog st lr = .ok st') :
    alGet st'.existing_id_to_materialized k = alGet st.existing_id_to_materialized k ∧
    alGet st'.new_id_to_materialized k = alGet st.new_id_to_materialized k := by
  rcases applyLog_ok_shape st st' lr h with rfl | ⟨r, _, _, _, _, rfl⟩ | ⟨_, rfl⟩ | ⟨f, _, rfl⟩ | ⟨_, rfl⟩
  · exact ⟨rfl, rfl⟩
  · exact ⟨rfl, alGet_alInsert_ne _ _ _ _ (Ne.symm hne)⟩
  · exact ⟨rfl, alGet_alRemove_ne _ _ _ (Ne.symm hne)⟩
  · exact ⟨alGet_alModify_ne _ _ _ _ (Ne.symm hne), rfl⟩
  · exact ⟨rfl, alGet_alModify_ne _ _ _ _ (Ne.symm hne)⟩

/-- A replay step preserves the offset invariant and advances the counter
by at most one, provided the counter cannot wrap. -/
theorem applyLog_inv_offsets (start : Nat) (st st' : MatState) (lr : LogRecord)
    (ho : InvOffsets start st)
    (hwrap : st.curr_max_offset_id + 1 < 2 ^ 32)
    (h : applyLog st lr = .ok st') :
    InvOffsets start st' ∧
    st.curr_max_offset_id ≤ st'.curr_max_offset_id ∧
    st'.curr_max_offset_id ≤ st.curr_max_offset_id + 1 := by
  obtain ⟨hbound, hnd, hle⟩ := ho
  rcases applyLog_ok_shape st st' lr h with rfl | ⟨r, hmat, hex, hnew, _, rfl⟩ | ⟨_, rfl⟩ | ⟨f, _, rfl⟩ | ⟨_, rfl⟩
  · exact ⟨⟨hbound, hnd, hle⟩, Nat.le_refl _, Nat.le_succ _⟩
  · obtain ⟨_, hoff, _, _, _, _, _⟩ := materializedFromOperation_ok _ _ _ _ hmat
    have hmod : (st.curr_max_offset_id + 1) % 2 ^ 32 = st.curr_max_offset_id + 1 :=
      Nat.mod_eq_of_lt hwrap
    refine ⟨⟨?_, ?_, ?_⟩, ?_, ?_⟩
    · intro p hp
      simp only [hmod]
      rw [alInsert_not_contains _ _ _ hnew] at hp
      rcases List.mem_append.mp hp with hm | hm
      · obtain ⟨h1, h2⟩ := hbound p hm
        exact ⟨h1, Nat.lt_succ_of_lt h2⟩
      · rw [List.mem_singleton] at hm
        subst hm
        simp only [hoff]
        exact ⟨hle, Nat.lt_succ_self _⟩
    · rw [alInsert_not_contains _ _ _ hnew, List.map_append, List.nodup_append]
      refine ⟨hnd, List.nodup_singleton _, ?_⟩
      intro a ha hb
      simp only [List.map_cons, List.map_nil, List.mem_singleton] at hb
      subst hb
      obtain ⟨q, hq, hqa⟩ := List.mem_map.mp ha
      have := (hbound q hq).2
      rw [hqa, hoff] at this
      exact Nat.lt_irrefl _ this
    · simp only [hmod]
      exact Nat.le_succ_of_le hle
    · simp only [hmod]
      exact Nat.le_succ _
    · simp only [hmod]
      exact Nat.le_refl _
  · refine ⟨⟨?_, ?_, hle⟩, Nat.le_refl _, Nat.le_succ _⟩
    · intro p hp
      exact hbound p ((mem_alRemove _ _ _).mp hp).1
    · exact hnd.sublist (List.Sublist.map _ (alRemove_sublist _ _))
  · exact ⟨⟨hbound, hnd, hle⟩, Nat.le_refl _, Nat.le_succ _⟩
  · refine ⟨⟨?_, ?_, hle⟩, Nat.le_refl _, Nat.le_succ _⟩
    · intro p hp
      rw [alModify_eq_map] at hp
      obtain ⟨q, hq, rfl⟩ := List.mem_map.mp hp
      by_cases hk : q.1 = lr.record.id
      · simpa [hk] using hbound q hq
      · simpa [hk] using hbound q hq
    · rw [alModify_eq_map, List.map_map]
      have : ((fun p : String × MaterializedLogRecordV2 => p.2.offset_id) ∘
          (fun q : String × MaterializedLogRecordV2 =>
            (q.1, if q.1 = lr.record.id then updatePayload q.2 lr.record else q.2))) =
          fun q : String × MaterializedLogRecordV2 =>
            (if q.1 = lr.record.id then updatePayload q.2 lr.record else q.2).offset_id := rfl
      rw [this]
      have heq : st.new_id_to_materialized.map
          (fun q : String × MaterializedLogRecordV2 =>
            (if q.1 = lr.record.id then updatePayload q.2 lr.record else q.2).offset_id) =
          st.new_id_to_materialized.map (fun q => q.2.offset_id) := by
        apply List.map_congr_left
        intro q hq
        by_cases hk : q.1 = lr.record.id
        · simp [hk]
        · simp [hk]
      rw [heq]
      exact hnd

/-! ## Replay-pass lemmas -/

theorem replayLogs_append (st : MatState) (l1 l2 : List LogRecord) :
    replayLogs st (l1 ++ l2) =
      match replayLogs st l1 with
      | .ok st' => replayLogs st' l2
      | .error e => .error e := by
  induction l1 generalizing st with
  | nil => rw [List.nil_append, replayLogs]
  | cons lr rest ih =>
    rw [List.cons_append, replayLogs, replayLogs]
    cases applyLog st lr with
    | ok st1 => exact ih st1
    | error e => rfl

theorem replayLogs_inv_basic (reader : RecordSegmentReader) (l : List LogRecord) :
    ∀ st st', InvBasic reader st → replayLogs st l = .ok st' →
      InvBasic reader st' := by
  induction l with
  | nil =>
    intro st st' hinv h
    rw [replayLogs] at h
    injection h with h
    subst h
    exact hinv
  | cons lr rest ih =>
    intro st st' hinv h
    rw [replayLogs] at h
    cases ha : applyLog st lr with
    | ok st1 =>
      rw [ha] at h
      exact ih st1 st' (applyLog_inv_basic reader st st1 lr hinv ha) h
    | error e =>
      rw [ha] at h
      cases h

theorem replayLogs_existing_keys (l : List LogRecord) :
    ∀ st st', replayLogs st l = .ok st' →
      alKeys st'.existing_id_to_materialized = alKeys st.existing_id_to_materialized := by
  induction l with
  | nil =>
    intro st st' h
    rw [replayLogs] at h
    injection h with h
    subst h
    rfl
  | cons lr rest ih =>
    intro st st' h
    rw [replayLogs] at h
    cases ha : applyLog st lr with
    | ok st1 =>
      rw [ha] at h
      rw [ih st1 st' h, applyLog_existing_keys st st1 lr ha]
    | error e =>
      rw [ha] at h
      cases h

theorem replayLogs_frame (k : String) (l : List LogRecord)
    (hl : ∀ lr ∈ l, lr.record.id ≠ k) :
    ∀ st st', replayLogs st l = .ok st' →
      alGet st'.existing_id_to_materialized k = alGet st.existing_id_to_materialized k ∧
      alGet st'.new_id_to_materialized k = alGet st.new_id_to_materialized k := by
  induction l with
  | nil =>
    intro st st' h
    rw [replayLogs] at h
    injection h with h
    subst h
    exact ⟨rfl, rfl⟩
  | cons lr rest ih =>
    intro st st' h
    rw [replayLogs] at h
    cases ha : applyLog st lr with
    | ok st1 =>
      rw [ha] at h
      obtain ⟨e1, n1⟩ := applyLog_frame st st1 lr k (hl lr (List.mem_cons_self _ _)) ha
      obtain ⟨e2, n2⟩ := ih (fun x hx => hl x (List.mem_cons_of_mem _ hx)) st1 st' h
      exact ⟨e2.trans e1, n2.trans n1⟩
    | error e =>
      rw [ha] at h
      cases h

theorem replayLogs_inv_offsets (start : Nat) (l : List LogRecord) :
    ∀ st st', InvOffsets start st →
      st.curr_max_offset_id + l.length < 2 ^ 32 →
      replayLogs st l = .ok st' →
      InvOffsets start st' ∧
      st.curr_max_offset_id ≤ st'.curr_max_offset_id ∧
      st'.curr_max_offset_id ≤ st.curr_max_offset_id + l.length := by
  induction l with
  | nil =>
    intro st st' ho hlen h
    rw [replayLogs] at h
    injection h with h
    subst h
    exact ⟨ho, Nat.le_refl _, Nat.le_refl _⟩
  | cons lr rest ih =>
    intro st st' ho hlen h
    rw [replayLogs] at h
    cases ha : applyLog st lr with
    | ok st1 =>
      rw [ha] at h
      rw [List.length_cons] at hlen
      have hwrap : st.curr_max_offset_id + 1 < 2 ^ 32 := by omega
      obtain ⟨ho1, hlo, hhi⟩ := applyLog_inv_offsets start st st1 lr ho hwrap ha
      have hlen1 : st1.curr_max_offset_id + rest.length < 2 ^ 32 := by omega
      obtain ⟨ho2, hlo2, hhi2⟩ := ih st1 st' ho1 hlen1 h
      refine ⟨ho2, Nat.le_trans hlo hlo2, ?_⟩
      rw [List.length_cons]
      omega
    | error e =>
      rw [ha] at h
      cases h

theorem applyLog_new_provenance (st st' : MatState) (lr : LogRecord) (k : String)
    (h : applyLog st lr = .ok st')
    (hc : alContains st'.new_id_to_materialized k = true) :
    alContains st.new_id_to_materialized k = true ∨
    (lr.record.id = k ∧
      (lr.record.operation = Operation.add ∨ lr.record.operation = Operation.upsert)) := by
  rcases applyLog_ok_shape st st' lr h with rfl | ⟨r, _, _, _, hops, rfl⟩ | ⟨_, rfl⟩ |
    ⟨f, _, rfl⟩ | ⟨_, rfl⟩
  · exact Or.inl hc
  · simp only [alContains_alInsert] at hc
    by_cases hk : k = lr.record.id
    · exact Or.inr ⟨hk.symm, hops⟩
    · rw [if_neg hk] at hc
      exact Or.inl hc
  · simp only [alContains_alRemove] at hc
    by_cases hk : k = lr.record.id
    · rw [if_pos hk] at hc
      cases hc
    · rw [if_neg hk] at hc
      exact Or.inl hc
  · exact Or.inl hc
  · simp only [alContains_alModify] at hc
    exact Or.inl hc

theorem replayLogs_new_provenance (k : String) (l : List LogRecord) :
    ∀ st st', replayLogs st l = .ok st' →
      alContains st'.new_id_to_materialized k = true →
      alContains st.new_id_to_materialized k = true ∨
      ∃ lr ∈ l, lr.record.id = k ∧
        (lr.record.operation = Operation.add ∨ lr.record.operation = Operation.upsert) := by
  induction l with
  | nil =>
    intro st st' h hc
    rw [replayLogs] at h
    injection h with h
    subst h
    exact Or.inl hc
  | cons lr rest ih =>
    intro st st' h hc
    rw [replayLogs] at h
    cases ha : applyLog st lr with
    | ok st1 =>
      rw [ha] at h
      rcases ih st1 st' h hc with h1 | ⟨x, hx, hxx⟩
      · rcases applyLog_new_provenance st st1 lr k ha h1 with h2 | h2
        · exact Or.inl h2
        · exact Or.inr ⟨lr, List.mem_cons_self _ _, h2⟩
      · exact Or.inr ⟨x, List.mem_cons_of_mem _ hx, hxx⟩
    | error e =>
      rw [ha] at h
      cases h

/-! ## Durable-origin pass lemmas -/

theorem alKeys_alInsert_contains {α : Type} (l : List (String × α)) (k : String)
    (v : α) (h : alContains l k = true) :
    alKeys (alInsert l k v) = alKeys l := by
  induction l with
  | nil => simp [alContains] at h
  | cons q rest ih =>
    obtain ⟨a, v'⟩ := q
    rw [alContains, alGet_cons] at h
    by_cases ha : a = k
    · rw [alInsert_cons, if_pos ha, alKeys, alKeys, List.map_cons, List.map_cons, ha]
    · rw [if_neg ha] at h
      rw [alInsert_cons, if_neg ha, alKeys, List.map_cons, alKeys, List.map_cons]
      rw [show List.map (fun x : String × α => x.1) (alInsert rest k v) =
        alKeys (alInsert rest k v) from rfl, ih h]
      rfl

theorem duraFold_existsCalls (reader : RecordSegmentReader) (l : List LogRecord) :
    ∀ acc, (l.foldl (duraStep reader) acc).existsCalls =
      acc.existsCalls ++ l.map (·.record.id) := by
  induction l with
  | nil => intro acc; simp
  | cons lr rest ih =>
    intro acc
    rw [List.foldl_cons, ih, List.map_cons]
    rcases hg : alGet reader lr.record.id with _ | p
    · simp [duraStep, hg]
    · simp [duraStep, hg]

theorem duraFold_lookupCalls (reader : RecordSegmentReader) (l : List LogRecord) :
    ∀ acc, (l.foldl (duraStep reader) acc).lookupCalls =
      acc.lookupCalls ++
        (l.filter (fun lr => alContains reader lr.record.id)).map (·.record.id) := by
  induction l with
  | nil => intro acc; simp
  | cons lr rest ih =>
    intro acc
    rw [List.foldl_cons, ih]
    rcases hg : alGet reader lr.record.id with _ | p
    · have hc : alContains reader lr.record.id = false := by
        rw [alContains, hg]
        rfl
      simp [duraStep, hg, hc]
    · have hc : alContains reader lr.record.id = true := by
        rw [alContains, hg]
        rfl
      simp [duraStep, hg, hc]

theorem duraFold_table_get (reader : RecordSegmentReader) (l : List LogRecord) :
    ∀ acc (k : String), alGet (l.foldl (duraStep reader) acc).table k =
      if (∃ lr ∈ l, lr.record.id = k) ∧ alContains reader k = true
      then (alGet reader k).map (fun p => fromDataRecord p.1 p.2)
      else alGet acc.table k := by
  induction l with
  | nil => intro acc k; simp
  | cons lr rest ih =>
    intro acc k
    rw [List.foldl_cons, ih]
    by_cases hk : lr.record.id = k
    · subst hk
      rcases hg : alGet reader lr.record.id with _ | p
      · have hc : alContains reader lr.record.id = false := by
          rw [alContains, hg]
          rfl
        simp [duraStep, hg, hc]
      · have hc : alContains reader lr.record.id = true := by
          rw [alContains, hg]
          rfl
        simp only [duraStep, hg]
        by_cases hrest : ∃ x ∈ rest, x.record.id = lr.record.id
        · rw [if_pos ⟨hrest, hc⟩, if_pos ⟨⟨lr, List.mem_cons_self _ _, rfl⟩, hc⟩]
        · rw [if_neg, if_pos ⟨⟨lr, List.mem_cons_self _ _, rfl⟩, hc⟩]
          · rw [alGet_alInsert_self]
            rfl
          · rintro ⟨hcc, -⟩
            exact hrest hcc
    · have hsame : ((∃ x ∈ lr :: rest, x.record.id = k) ∧ alContains reader k = true) ↔
          ((∃ x ∈ rest, x.record.id = k) ∧ alContains reader k = true) := by
        constructor
        · rintro ⟨⟨x, hx, hxk⟩, hcc⟩
          rcases List.mem_cons.mp hx with rfl | hx'
          · exact absurd hxk hk
          · exact ⟨⟨x, hx', hxk⟩, hcc⟩
        · rintro ⟨⟨x, hx, hxk⟩, hcc⟩
          exact ⟨⟨x, List.mem_cons_of_mem _ hx, hxk⟩, hcc⟩
      have hacc : alGet (duraStep reader acc lr).table k = alGet acc.table k := by
        rcases hg : alGet reader lr.record.id with _ | p
        · simp [duraStep, hg]
        · simp only [duraStep, hg]
          exact alGet_alInsert_ne _ _ _ _ (fun he => hk he.symm)
      by_cases hcond : (∃ x ∈ rest, x.record.id = k) ∧ alContains reader k = true
      · rw [if_pos hcond, if_pos (hsame.mpr hcond)]
      · rw [if_neg hcond, if_neg (fun hc2 => hcond (hsame.mp hc2)), hacc]

theorem duraFold_table_mem (reader : RecordSegmentReader) (l : List LogRecord) :
    ∀ acc p, p ∈ (l.foldl (duraStep reader) acc).table →
      p ∈ acc.table ∨
      ∃ d o, alGet reader p.1 = some (d, o) ∧ p.2 = fromDataRecord d o := by
  induction l with
  | nil => intro acc p hp; exact Or.inl hp
  | cons lr rest ih =>
    intro acc p hp
    rw [List.foldl_cons] at hp
    rcases ih _ p hp with hm | hfound
    · rcases hg : alGet reader lr.record.id with _ | q
      · simp only [duraStep, hg] at hm
        exact Or.inl hm
      · simp only [duraStep, hg] at hm
        rcases mem_alInsert _ _ _ _ hm with hm' | he
        · exact Or.inl hm'
        · subst he
          exact Or.inr ⟨q.1, q.2, by rw [hg], rfl⟩
    · exact Or.inr hfound

theorem duraFold_table_nodup (reader : RecordSegmentReader) (l : List LogRecord) :
    ∀ acc, (alKeys acc.table).Nodup →
      (alKeys (l.foldl (duraStep reader) acc).table).Nodup := by
  induction l with
  | nil => intro acc h; exact h
  | cons lr rest ih =>
    intro acc h
    rw [List.foldl_cons]
    apply ih
    rcases hg : alGet reader lr.record.id with _ | q
    · simpa [duraStep, hg] using h
    · simp only [duraStep, hg]
      by_cases hc : alContains acc.table lr.record.id = true
      · rw [alKeys_alInsert_contains _ _ _ hc]
        exact h
      · have hc' : alContains acc.table lr.record.id = false := by simpa using hc
        rw [alKeys_alInsert_not_contains _ _ _ hc', List.nodup_append]
        refine ⟨h, List.nodup_singleton _, ?_⟩
        intro a ha hb
        rw [List.mem_singleton] at hb
        subst hb
        rw [← alContains_iff_mem_keys] at ha
        rw [ha] at hc'
        cases hc'

theorem initState_inv_basic (reader : RecordSegmentReader) (logs : List LogRecord)
    (start : Nat) : InvBasic reader (initState reader logs start) := by
  refine ⟨?_, List.nodup_nil, ?_, ?_, ?_⟩
  · exact duraFold_table_nodup reader logs ⟨[], [], []⟩ List.nodup_nil
  · intro p hp
    rfl
  · intro p hp
    rcases duraFold_table_mem reader logs ⟨[], [], []⟩ p hp with hm | ⟨d, o, hg, he⟩
    · simp at hm
    · exact ⟨by rw [hg, he]; rfl, by rw [hg, he]; rfl, by rw [he]; rfl⟩
  · intro p hp
    simp [initState] at hp

theorem initState_inv_offsets (reader : RecordSegmentReader) (logs : List LogRecord)
    (start : Nat) : InvOffsets start (initState reader logs start) := by
  refine ⟨?_, ?_, Nat.le_refl _⟩
  · intro p hp
    simp [initState] at hp
  · simp [initState]

theorem initState_get_existing (reader : RecordSegmentReader) (logs : List LogRecord)
    (start : Nat) (k : String) (d : DataRecord) (o : Nat)
    (hg : alGet reader k = some (d, o)) (hocc : ∃ lr ∈ logs, lr.record.id = k) :
    alGet (initState reader logs start).existing_id_to_materialized k =
      some (fromDataRecord d o) := by
  show alGet (duraPass reader logs).table k = _
  rw [duraPass, duraFold_table_get]
  rw [if_pos ⟨hocc, by rw [alContains, hg]; rfl⟩, hg]
  rfl

theorem initState_get_none (reader : RecordSegmentReader) (logs : List LogRecord)
    (start : Nat) (k : String) (hg : alGet reader k = none) :
    alGet (initState reader logs start).existing_id_to_materialized k = none := by
  show alGet (duraPass reader logs).table k = _
  rw [duraPass, duraFold_table_get]
  rw [if_neg]
  · rfl
  · rintro ⟨-, hc⟩
    rw [alContains, hg] at hc
    cases hc

/-! ## Identifying output records by their identifier -/

theorem isFor_existing (reader : RecordSegmentReader) (k uid : String)
    (r : MaterializedLogRecordV2) (hwf : readerIdsOk reader)
    (hok : existingEntryOk reader k r) : isFor r uid = decide (k = uid) := by
  obtain ⟨h1, h2, h3⟩ := hok
  rcases hg : alGet reader k with _ | q
  · rw [hg] at h2
    cases h2
  · rw [hg] at h1
    have h1' : r.data_record = some q.1 := by
      rw [← h1]
      rfl
    have hid : q.1.id = k := hwf (k, q) (alGet_mem _ _ _ hg)
    simp only [isFor, h1']
    rw [hid]
    simp [beq_eq_decide]

theorem isFor_new (k uid : String) (r : MaterializedLogRecordV2)
    (hok : newEntryOk k r) : isFor r uid = decide (k = uid) := by
  obtain ⟨h1, h2, h3, h4⟩ := hok
  simp only [isFor, h1, h2]
  simp [beq_eq_decide]

theorem values_filter_isFor (T : List (String × MaterializedLogRecordV2))
    (uid : String) (hn : (alKeys T).Nodup)
    (hall : ∀ p ∈ T, isFor p.2 uid = decide (p.1 = uid)) :
    (alValues T).filter (fun r => isFor r uid) =
      match alGet T uid with
      | some r => [r]
      | none => [] := by
  induction T with
  | nil => rfl
  | cons q rest ih =>
    obtain ⟨a, v⟩ := q
    rw [alKeys, List.map_cons, List.nodup_cons] at hn
    obtain ⟨hna, hnr⟩ := hn
    have hv : isFor v uid = decide (a = uid) := hall (a, v) (List.mem_cons_self _ _)
    by_cases ha : a = uid
    · have hv' : isFor v uid = true := by
        rw [hv, ha]
        simp
      have hrest : (alValues rest).filter (fun r => isFor r uid) = [] := by
        rw [List.filter_eq_nil_iff]
        intro r hr
        obtain ⟨p, hp, rfl⟩ := List.mem_map.mp hr
        rw [hall p (List.mem_cons_of_mem _ hp)]
        have hne : p.1 ≠ uid := fun he =>
          hna (by rw [show ((a, v) : String × MaterializedLogRecordV2).1 = a from rfl,
            ha, ← he]; exact List.mem_map_of_mem _ hp)
        simp [hne]
      rw [alGet_cons, if_pos ha]
      show List.filter (fun r => isFor r uid) (v :: alValues rest) = [v]
      rw [List.filter_cons, hv', hrest, if_pos rfl]
    · have hv' : isFor v uid = false := by
        rw [hv]
        simp [ha]
      rw [alGet_cons, if_neg ha]
      have hrec := ih hnr (fun p hp => hall p (List.mem_cons_of_mem _ hp))
      show List.filter (fun r => isFor r uid) (v :: alValues rest) = _
      rw [List.filter_cons, hv', if_neg Bool.false_ne_true]
      exact hrec

theorem recordsFor_collect (reader : RecordSegmentReader) (st : MatState)
    (uid : String) (hwf : readerIdsOk reader) (hinv : InvBasic reader st) :
    recordsFor (collectOutput st) uid =
      (match alGet st.existing_id_to_materialized uid with
       | some r => [r]
       | none => []) ++
      (match alGet st.new_id_to_materialized uid with
       | some r => [r]
       | none => []) := by
  obtain ⟨hexN, hnewN, hdisj, hexOk, hnewOk⟩ := hinv
  rw [recordsFor, collectOutput, List.filter_append]
  rw [values_filter_isFor _ uid hexN
    (fun p hp => isFor_existing reader p.1 uid p.2 hwf (hexOk p hp))]
  rw [values_filter_isFor _ uid hnewN
    (fun p hp => isFor_new p.1 uid p.2 (hnewOk p hp))]

/-! ## Tracking a durably deleted identifier through the replay -/

/-- The output record produced for a durable-origin identifier whose last
effective operation is a Delete: origin and offset retained, operation
`Delete`, every payload field and the user id cleared. -/
def deletedOf (d : DataRecord) (o : Nat) : MaterializedLogRecordV2 where
  data_record := some d
  offset_id := o
  user_id := none
  final_operation := .delete
  metadata_to_be_merged := none
  final_document := none
  final_embedding := none

theorem deleteEntry_deletedOf (reader : RecordSegmentReader) (k : String)
    (r : MaterializedLogRecordV2) (d : DataRecord) (o : Nat)
    (hok : existingEntryOk reader k r) (hg : alGet reader k = some (d, o)) :
    deleteEntry r = deletedOf d o := by
  obtain ⟨h1, h2, h3⟩ := hok
  rw [hg] at h1 h2
  have hd : r.data_record = some d := h1.symm
  have ho : r.offset_id = o := (Option.some_injective _ h2).symm
  rw [show deleteEntry r =
    { data_record := r.data_record, offset_id := r.offset_id, user_id := none,
      final_operation := .delete, metadata_to_be_merged := none,
      final_document := none, final_embedding := none } from rfl, hd, ho]
  rfl

theorem deleteEntry_deletedOf_idem (d : DataRecord) (o : Nat) :
    deleteEntry (deletedOf d o) = deletedOf d o := rfl

theorem alContains_keys_congr {α β : Type} (l1 : List (String × α))
    (l2 : List (String × β)) (k : String) (h : alKeys l1 = alKeys l2) :
    alContains l1 k = alContains l2 k := by
  rw [Bool.eq_iff_iff, alContains_iff_mem_keys, alContains_iff_mem_keys, h]

/-- Once a durable-origin identifier's entry is in the fully deleted state
and the identifier is absent from the "new" table, any sequence of further
Add and Delete operations for it (and arbitrary operations for other
identifiers) leaves it exactly there. -/
theorem replayLogs_keep_deleted (uid : String) (d : DataRecord) (o : Nat)
    (l : List LogRecord)
    (hl : ∀ lr ∈ l, lr.record.id = uid →
      lr.record.operation = Operation.add ∨ lr.record.operation = Operation.delete) :
    ∀ st st', alGet st.existing_id_to_materialized uid = some (deletedOf d o) →
      alContains st.new_id_to_materialized uid = false →
      replayLogs st l = .ok st' →
      alGet st'.existing_id_to_materialized uid = some (deletedOf d o) ∧
      alContains st'.new_id_to_materialized uid = false := by
  induction l with
  | nil =>
    intro st st' hget hnc h
    rw [replayLogs] at h
    injection h with h
    subst h
    exact ⟨hget, hnc⟩
  | cons lr rest ih =>
    intro st st' hget hnc h
    rw [replayLogs] at h
    cases ha : applyLog st lr with
    | error e =>
      rw [ha] at h
      cases h
    | ok st1 =>
      rw [ha] at h
      have hcget : alContains st.existing_id_to_materialized uid = true := by
        rw [alContains, hget]
        rfl
      by_cases hid : lr.record.id = uid
      · rcases hl lr (List.mem_cons_self _ _) hid with hop | hop
        · rw [applyLog_add_skip_existing st lr hop (by rw [hid]; exact hcget)] at ha
          injection ha with ha
          subst ha
          exact ih (fun x hx => hl x (List.mem_cons_of_mem _ hx)) st st' hget hnc h
        · rw [applyLog_delete_existing st lr hop (by rw [hid]; exact hnc)
            (by rw [hid]; exact hcget)] at ha
          injection ha with ha
          subst ha
          refine ih (fun x hx => hl x (List.mem_cons_of_mem _ hx))
            { st with existing_id_to_materialized :=
                alModify st.existing_id_to_materialized lr.record.id deleteEntry }
            st' ?_ hnc h
          show alGet (alModify st.existing_id_to_materialized lr.record.id deleteEntry)
            uid = some (deletedOf d o)
          rw [hid, alGet_alModify_self, hget]
          rfl
      · obtain ⟨he, hn⟩ := applyLog_frame st st1 lr uid hid ha
        refine ih (fun x hx => hl x (List.mem_cons_of_mem _ hx)) st1 st' ?_ ?_ h
        · rw [he]
          exact hget
        · rw [alContains, hn]
          exact hnc

/-- `materializeV2` in terms of `initState`. -/
theorem materializeV2_eq (reader : RecordSegmentReader) (logs : List LogRecord)
    (start : Nat) :
    materializeV2 reader logs start =
      match replayLogs (initState reader logs start) logs with
      | .ok st => .ok (collectOutput st)
      | .error e => .error e := rfl

theorem replayLogs_append_ok (st : MatState) (l1 l2 : List LogRecord)
    (stF : MatState) (h : replayLogs st (l1 ++ l2) = .ok stF) :
    ∃ st1, replayLogs st l1 = .ok st1 ∧ replayLogs st1 l2 = .ok stF := by
  rw [replayLogs_append] at h
  cases h1 : replayLogs st l1 with
  | error e =>
    rw [h1] at h
    cases h
  | ok st1 =>
    rw [h1] at h
    exact ⟨st1, rfl, h⟩

theorem replayLogs_cons_ok (st : MatState) (lr : LogRecord) (rest : List LogRecord)
    (stF : MatState) (h : replayLogs st (lr :: rest) = .ok stF) :
    ∃ st1, applyLog st lr = .ok st1 ∧ replayLogs st1 rest = .ok stF := by
  rw [replayLogs] at h
  cases h1 : applyLog st lr with
  | error e =>
    rw [h1] at h
    cases h
  | ok st1 =>
    rw [h1] at h
    exact ⟨st1, rfl, h⟩

/-- Shared core of the durable-delete properties: if a durable-origin
identifier receives a Delete and afterwards only Add/Delete operations,
the output contains exactly the fully deleted record for it, and no fresh
insert for it. -/
theorem durable_delete_general (reader : RecordSegmentReader)
    (pre post : List LogRecord) (del : LogRecord) (uid : String)
    (d : DataRecord) (o : Nat) (start : Nat) (out : List MaterializedLogRecordV2)
    (hwf : readerIdsOk reader)
    (hdel_id : del.record.id = uid)
    (hdel_op : del.record.operation = Operation.delete)
    (hg : alGet reader uid = some (d, o))
    (hpost : ∀ lr ∈ post, lr.record.id = uid →
      lr.record.operation = Operation.add ∨ lr.record.operation = Operation.delete)
    (hok : materializeV2 reader (pre ++ del :: post) start = .ok out) :
    recordsFor out uid = [deletedOf d o] ∧ ∀ r ∈ out, r.user_id ≠ some uid := by
  rw [materializeV2_eq] at hok
  cases hrep : replayLogs (initState reader (pre ++ del :: post) start)
      (pre ++ del :: post) with
  | error e =>
    rw [hrep] at hok
    cases hok
  | ok stF =>
    rw [hrep] at hok
    injection hok with hok
    subst hok
    obtain ⟨st1, h1, hrest⟩ := replayLogs_append_ok _ _ _ _ hrep
    obtain ⟨st2, hstep, hpost'⟩ := replayLogs_cons_ok _ _ _ _ hrest
    have hinv0 : InvBasic reader (initState reader (pre ++ del :: post) start) :=
      initState_inv_basic _ _ _
    have hinv1 : InvBasic reader st1 := replayLogs_inv_basic reader pre _ st1 hinv0 h1
    have hkeys := replayLogs_existing_keys pre _ st1 h1
    have hc0 : alContains
        (initState reader (pre ++ del :: post) start).existing_id_to_materialized
        uid = true := by
      rw [alContains, initState_get_existing reader _ start uid d o hg
        ⟨del, by simp, hdel_id⟩]
      rfl
    have hc1 : alContains st1.existing_id_to_materialized uid = true := by
      rw [alContains_keys_congr _ _ uid hkeys]
      exact hc0
    obtain ⟨r1, hr1⟩ := Option.isSome_iff_exists.mp hc1
    have hmem1 : (uid, r1) ∈ st1.existing_id_to_materialized := alGet_mem _ _ _ hr1
    have hok1 : existingEntryOk reader uid r1 := hinv1.2.2.2.1 (uid, r1) hmem1
    have hnc1 : alContains st1.new_id_to_materialized uid = false :=
      hinv1.2.2.1 (uid, r1) hmem1
    have hdeleq := applyLog_delete_existing st1 del hdel_op
      (by rw [hdel_id]; exact hnc1) (by rw [hdel_id]; exact hc1)
    rw [hdeleq] at hstep
    injection hstep with hstep
    subst hstep
    have hget2 : alGet (alModify st1.existing_id_to_materialized del.record.id
        deleteEntry) uid = some (deletedOf d o) := by
      rw [hdel_id, alGet_alModify_self, hr1,
        show Option.map deleteEntry (some r1) = some (deleteEntry r1) from rfl,
        deleteEntry_deletedOf reader uid r1 d o hok1 hg]
    obtain ⟨hgF, hncF⟩ := replayLogs_keep_deleted uid d o post hpost
      { st1 with existing_id_to_materialized :=
          alModify st1.existing_id_to_materialized del.record.id deleteEntry }
      stF hget2 hnc1 hpost'
    have hinv2 : InvBasic reader
        { st1 with existing_id_to_materialized :=
            alModify st1.existing_id_to_materialized del.record.id deleteEntry } :=
      applyLog_inv_basic reader st1 _ del hinv1 hdeleq
    have hinvF : InvBasic reader stF := replayLogs_inv_basic reader post _ stF hinv2 hpost'
    constructor
    · rw [recordsFor_collect reader stF uid hwf hinvF, hgF,
        alGet_eq_none_of_not_contains _ _ hncF]
      rfl
    · intro r hr hru
      rcases List.mem_append.mp hr with hrex | hrnew
      · obtain ⟨p, hp, rfl⟩ := List.mem_map.mp hrex
        have hu := (hinvF.2.2.2.1 p hp).2.2
        rw [hu] at hru
        cases hru
      · obtain ⟨p, hp, rfl⟩ := List.mem_map.mp hrnew
        have hu := (hinvF.2.2.2.2 p hp).2.1
        rw [hu] at hru
        have hpk : p.1 = uid := Option.some_injective _ hru
        have hck : alContains stF.new_id_to_materialized p.1 = true :=
          (alContains_iff_mem_keys _ _).mpr (List.mem_map_of_mem _ hp)
        rw [hpk, hncF] at hck
        cases hck

/-! ## Tracking absent and fresh identifiers through the replay -/

/-- If an identifier is in neither table, further Update and Delete
operations for it (and arbitrary operations for other identifiers) keep it
out of both tables. -/
theorem replayLogs_keep_absent (uid : String) (l : List LogRecord)
    (hl : ∀ lr ∈ l, lr.record.id = uid →
      lr.record.operation = Operation.update ∨ lr.record.operation = Operation.delete) :
    ∀ st st', alContains st.existing_id_to_materialized uid = false →
      alContains st.new_id_to_materialized uid = false →
      replayLogs st l = .ok st' →
      alContains st'.existing_id_to_materialized uid = false ∧
      alContains st'.new_id_to_materialized uid = false := by
  induction l with
  | nil =>
    intro st st' hex hnew h
    rw [replayLogs] at h
    injection h with h
    subst h
    exact ⟨hex, hnew⟩
  | cons lr rest ih =>
    intro st st' hex hnew h
    obtain ⟨st1, ha, h⟩ := replayLogs_cons_ok _ _ _ _ h
    by_cases hid : lr.record.id = uid
    · rcases hl lr (List.mem_cons_self _ _) hid with hop | hop
      · rw [applyLog_update_none st lr hop (by rw [hid]; exact hex)
          (by rw [hid]; exact hnew)] at ha
        injection ha with ha
        subst ha
        exact ih (fun x hx => hl x (List.mem_cons_of_mem _ hx)) st st' hex hnew h
      · rw [applyLog_delete_none st lr hop (by rw [hid]; exact hnew)
          (by rw [hid]; exact hex)] at ha
        injection ha with ha
        subst ha
        exact ih (fun x hx => hl x (List.mem_cons_of_mem _ hx)) st st' hex hnew h
    · obtain ⟨he, hn⟩ := applyLog_frame st st1 lr uid hid ha
      refine ih (fun x hx => hl x (List.mem_cons_of_mem _ hx)) st1 st' ?_ ?_ h
      · rw [alContains, he]
        exact hex
      · rw [alContains, hn]
        exact hnew

/-- The per-identifier operations of a batch, in batch order. -/
def opsFor (l : List LogRecord) (uid : String) : List OperationRecord :=
  (l.filter (fun lr => lr.record.id == uid)).map (·.record)

/-- The net effect of one further operation on a "new"-table entry: Update
and Upsert merge the payload (leaving `final_operation` untouched), an Add
for the already-present identifier is ignored. -/
def newReplayEntry (r : MaterializedLogRecordV2) (op : OperationRecord) :
    MaterializedLogRecordV2 :=
  match op.operation with
  | .update => updatePayload r op
  | .upsert => updatePayload r op
  | _ => r

/-- The net effect of one further operation on an "existing"-table entry
when only Add and Update occur: Update merges the payload and sets
`final_operation = Update`, Add is ignored. -/
def exReplayEntry (r : MaterializedLogRecordV2) (op : OperationRecord) :
    MaterializedLogRecordV2 :=
  match op.operation with
  | .update => { updatePayload r op with final_operation := .update }
  | _ => r

theorem opsFor_nil (uid : String) : opsFor [] uid = [] := rfl

theorem opsFor_cons_self (lr : LogRecord) (rest : List LogRecord) (uid : String)
    (hid : lr.record.id = uid) :
    opsFor (lr :: rest) uid = lr.record :: opsFor rest uid := by
  rw [opsFor, List.filter_cons, if_pos (by simp [hid]), List.map_cons]
  rfl

theorem opsFor_cons_other (lr : LogRecord) (rest : List LogRecord) (uid : String)
    (hid : lr.record.id ≠ uid) :
    opsFor (lr :: rest) uid = opsFor rest uid := by
  rw [opsFor, List.filter_cons, if_neg (by simp [hid])]
  rfl

/-- A freshly inserted identifier, never deleted afterwards, ends the
replay with its entry equal to the fold of `newReplayEntry` over its own
later operations, and never enters the "existing" table. -/
theorem replayLogs_track_new (uid : String) (l : List LogRecord)
    (hl : ∀ lr ∈ l, lr.record.id = uid → lr.record.operation ≠ Operation.delete) :
    ∀ st st' r0, alContains st.existing_id_to_materialized uid = false →
      alGet st.new_id_to_materialized uid = some r0 →
      replayLogs st l = .ok st' →
      alContains st'.existing_id_to_materialized uid = false ∧
      alGet st'.new_id_to_materialized uid =
        some ((opsFor l uid).foldl newReplayEntry r0) := by
  induction l with
  | nil =>
    intro st st' r0 hex hget h
    rw [replayLogs] at h
    injection h with h
    subst h
    exact ⟨hex, hget⟩
  | cons lr rest ih =>
    intro st st' r0 hex hget h
    obtain ⟨st1, ha, h⟩ := replayLogs_cons_ok _ _ _ _ h
    have hnewc : alContains st.new_id_to_materialized uid = true := by
      rw [alContains, hget]
      rfl
    by_cases hid : lr.record.id = uid
    · rw [opsFor_cons_self lr rest uid hid]
      cases hop : lr.record.operation with
      | delete => exact absurd hop (hl lr (List.mem_cons_self _ _) hid)
      | add =>
        rw [applyLog_add_skip_new st lr hop (by rw [hid]; exact hnewc)] at ha
        injection ha with ha
        subst ha
        rw [List.foldl_cons, show newReplayEntry r0 lr.record = r0 from by
          rw [newReplayEntry, hop]]
        exact ih (fun x hx => hl x (List.mem_cons_of_mem _ hx)) st st' r0 hex hget h
      | update =>
        rw [applyLog_update_new st lr hop (by rw [hid]; exact hex)
          (by rw [hid]; exact hnewc)] at ha
        injection ha with ha
        subst ha
        rw [List.foldl_cons, show newReplayEntry r0 lr.record = updatePayload r0 lr.record
          from by rw [newReplayEntry, hop]]
        refine ih (fun x hx => hl x (List.mem_cons_of_mem _ hx))
          { st with new_id_to_materialized :=
              (alModify st.new_id_to_materialized lr.record.id
                (fun r => updatePayload r lr.record)) } st' _ hex ?_ h
        show alGet (alModify st.new_id_to_materialized lr.record.id
          (fun r => updatePayload r lr.record)) uid = _
        rw [hid, alGet_alModify_self, hget]
        rfl
      | upsert =>
        rw [applyLog_upsert_new st lr hop (by rw [hid]; exact hex)
          (by rw [hid]; exact hnewc)] at ha
        injection ha with ha
        subst ha
        rw [List.foldl_cons, show newReplayEntry r0 lr.record = updatePayload r0 lr.record
          from by rw [newReplayEntry, hop]]
        refine ih (fun x hx => hl x (List.mem_cons_of_mem _ hx))
          { st with new_id_to_materialized :=
              (alModify st.new_id_to_materialized lr.record.id
                (fun r => updatePayload r lr.record)) } st' _ hex ?_ h
        show alGet (alModify st.new_id_to_materialized lr.record.id
          (fun r => updatePayload r lr.record)) uid = _
        rw [hid, alGet_alModify_self, hget]
        rfl
    · rw [opsFor_cons_other lr rest uid hid]
      obtain ⟨he, hn⟩ := applyLog_frame st st1 lr uid hid ha
      refine ih (fun x hx => hl x (List.mem_cons_of_mem _ hx)) st1 st' r0 ?_ ?_ h
      · rw [alContains, he]
        exact hex
      · rw [hn]
        exact hget

/-- A durable-origin identifier receiving only Add and Update operations
ends the replay with its entry equal to the fold of `exReplayEntry` over
its own operations, and stays out of the "new" table. -/
theorem replayLogs_track_existing (uid : String) (l : List LogRecord)
    (hl : ∀ lr ∈ l, lr.record.id = uid →
      lr.record.operation = Operation.add ∨ lr.record.operation = Operation.update) :
    ∀ st st' r0, alGet st.existing_id_to_materialized uid = some r0 →
      alContains st.new_id_to_materialized uid = false →
      replayLogs st l = .ok st' →
      alGet st'.existing_id_to_materialized uid =
        some ((opsFor l uid).foldl exReplayEntry r0) ∧
      alContains st'.new_id_to_materialized uid = false := by
  induction l with
  | nil =>
    intro st st' r0 hget hnew h
    rw [replayLogs] at h
    injection h with h
    subst h
    exact ⟨hget, hnew⟩
  | cons lr rest ih =>
    intro st st' r0 hget hnew h
    obtain ⟨st1, ha, h⟩ := replayLogs_cons_ok _ _ _ _ h
    have hexc : alContains st.existing_id_to_materialized uid = true := by
      rw [alContains, hget]
      rfl
    by_cases hid : lr.record.id = uid
    · rw [opsFor_cons_self lr rest uid hid]
      rcases hl lr (List.mem_cons_self _ _) hid with hop | hop
      · rw [applyLog_add_skip_existing st lr hop (by rw [hid]; exact hexc)] at ha
        injection ha with ha
        subst ha
        rw [List.foldl_cons, show exReplayEntry r0 lr.record = r0 from by
          rw [exReplayEntry, hop]]
        exact ih (fun x hx => hl x (List.mem_cons_of_mem _ hx)) st st' r0 hget hnew h
      · rw [applyLog_update_existing st lr hop (by rw [hid]; exact hexc)] at ha
        injection ha with ha
        subst ha
        rw [List.foldl_cons, show exReplayEntry r0 lr.record =
          { updatePayload r0 lr.record with final_operation := .update } from by
          rw [exReplayEntry, hop]]
        refine ih (fun x hx => hl x (List.mem_cons_of_mem _ hx))
          { st with existing_id_to_materialized :=
              (alModify st.existing_id_to_materialized lr.record.id
                (fun r => { updatePayload r lr.record with final_operation := .update })) }
          st' _ ?_ hnew h
        show alGet (alModify st.existing_id_to_materialized lr.record.id
          (fun r => { updatePayload r lr.record with final_operation := .update }))
          uid = _
        rw [hid, alGet_alModify_self, hget]
        rfl
    · rw [opsFor_cons_other lr rest uid hid]
      obtain ⟨he, hn⟩ := applyLog_frame st st1 lr uid hid ha
      refine ih (fun x hx => hl x (List.mem_cons_of_mem _ hx)) st1 st' r0 ?_ ?_ h
      · rw [he]
        exact hget
      · rw [alContains, hn]
        exact hnew

/-! ## Properties of the per-identifier folds -/

theorem newReplayEntry_final_operation (r : MaterializedLogRecordV2)
    (op : OperationRecord) :
    (newReplayEntry r op).final_operation = r.final_operation := by
  cases hop : op.operation <;> simp [newReplayEntry, hop]

theorem foldl_newReplayEntry_final_operation (ops : List OperationRecord) :
    ∀ r0, (ops.foldl newReplayEntry r0).final_operation = r0.final_operation := by
  induction ops with
  | nil => intro r0; rfl
  | cons op rest ih =>
    intro r0
    rw [List.foldl_cons, ih, newReplayEntry_final_operation]

theorem newReplayEntry_data_record (r : MaterializedLogRecordV2)
    (op : OperationRecord) :
    (newReplayEntry r op).data_record = r.data_record := by
  cases hop : op.operation <;> simp [newReplayEntry, hop]

theorem foldl_newReplayEntry_data_record (ops : List OperationRecord) :
    ∀ r0, (ops.foldl newReplayEntry r0).data_record = r0.data_record := by
  induction ops with
  | nil => intro r0; rfl
  | cons op rest ih =>
    intro r0
    rw [List.foldl_cons, ih, newReplayEntry_data_record]

theorem newReplayEntry_user_id (r : MaterializedLogRecordV2)
    (op : OperationRecord) :
    (newReplayEntry r op).user_id = r.user_id := by
  cases hop : op.operation <;> simp [newReplayEntry, hop]

theorem foldl_newReplayEntry_user_id (ops : List OperationRecord) :
    ∀ r0, (ops.foldl newReplayEntry r0).user_id = r0.user_id := by
  induction ops with
  | nil => intro r0; rfl
  | cons op rest ih =>
    intro r0
    rw [List.foldl_cons, ih, newReplayEntry_user_id]

theorem exReplayEntry_final_operation (r : MaterializedLogRecordV2)
    (op : OperationRecord) (hop : op.operation = Operation.update) :
    (exReplayEntry r op).final_operation = Operation.update := by
  simp [exReplayEntry, hop]

theorem exReplayEntry_final_operation_other (r : MaterializedLogRecordV2)
    (op : OperationRecord) (hop : op.operation ≠ Operation.update) :
    (exReplayEntry r op).final_operation = r.final_operation := by
  cases h : op.operation
  · simp [exReplayEntry, h]
  · exact absurd h hop
  · simp [exReplayEntry, h]
  · simp [exReplayEntry, h]

theorem foldl_exReplayEntry_keeps_update (ops : List OperationRecord) :
    ∀ r0, r0.final_operation = Operation.update →
      (ops.foldl exReplayEntry r0).final_operation = Operation.update := by
  induction ops with
  | nil => intro r0 h; exact h
  | cons op rest ih =>
    intro r0 h
    rw [List.foldl_cons]
    by_cases hop : op.operation = Operation.update
    · exact ih _ (exReplayEntry_final_operation r0 op hop)
    · exact ih _ ((exReplayEntry_final_operation_other r0 op hop).trans h)

theorem foldl_exReplayEntry_update_of_exists (ops : List OperationRecord)
    (h : ∃ op ∈ ops, op.operation = Operation.update) :
    ∀ r0, (ops.foldl exReplayEntry r0).final_operation = Operation.update := by
  induction ops with
  | nil =>
    obtain ⟨op, hm, -⟩ := h
    cases hm
  | cons op rest ih =>
    intro r0
    rw [List.foldl_cons]
    by_cases hop : op.operation = Operation.update
    · exact foldl_exReplayEntry_keeps_update rest _
        (exReplayEntry_final_operation r0 op hop)
    · obtain ⟨x, hx, hxo⟩ := h
      rcases List.mem_cons.mp hx with rfl | hx'
      · exact absurd hxo hop
      · exact ih ⟨x, hx', hxo⟩ _

/-- The metadata patches of the Update operations in a per-identifier
operation sequence, in order. -/
def updatePatches (ops : List OperationRecord) : List (Option UpdateMetadata) :=
  (ops.filter (fun op => op.operation == Operation.update)).map (·.metadata)

theorem foldl_exReplayEntry_metadata (ops : List OperationRecord)
    (hall : ∀ op ∈ ops, op.operation = Operation.add ∨ op.operation = Operation.update) :
    ∀ r0, (ops.foldl exReplayEntry r0).metadata_to_be_merged =
      (updatePatches ops).foldl merge_update_metadata r0.metadata_to_be_merged := by
  induction ops with
  | nil => intro r0; rfl
  | cons op rest ih =>
    intro r0
    rcases hall op (List.mem_cons_self _ _) with hop | hop
    · rw [List.foldl_cons, show exReplayEntry r0 op = r0 from by
        rw [exReplayEntry, hop]]
      rw [show updatePatches (op :: rest) = updatePatches rest from by
        rw [updatePatches, List.filter_cons, if_neg (by simp [hop])]; rfl]
      exact ih (fun x hx => hall x (List.mem_cons_of_mem _ hx)) r0
    · rw [List.foldl_cons, show exReplayEntry r0 op =
        { updatePayload r0 op with final_operation := .update } from by
        rw [exReplayEntry, hop]]
      rw [show updatePatches (op :: rest) = op.metadata :: updatePatches rest from by
        rw [updatePatches, List.filter_cons, if_pos (by simp [hop])]; rfl]
      rw [List.foldl_cons]
      exact ih (fun x hx => hall x (List.mem_cons_of_mem _ hx)) _

/-! ## Offset distinctness of the collected output -/

theorem output_offsets (reader : RecordSegmentReader) (stF : MatState) (start : Nat)
    (hro : (reader.map (fun p => p.2.2)).Nodup)
    (hrs : ∀ p ∈ reader, p.2.2 < start)
    (hb : InvBasic reader stF) (ho : InvOffsets start stF) :
    ((collectOutput stF).map (fun r => r.offset_id)).Nodup ∧
    ∀ r ∈ collectOutput stF, r.data_record = none → start ≤ r.offset_id := by
  obtain ⟨hexN, hnewN, hdisj, hexOk, hnewOk⟩ := hb
  obtain ⟨hbound, hnd, hle⟩ := ho
  have hgetr : ∀ p ∈ stF.existing_id_to_materialized,
      ∃ q, alGet reader p.1 = some q ∧ q.2 = p.2.offset_id := by
    intro p hp
    obtain ⟨h1, h2, h3⟩ := hexOk p hp
    rcases hgp : alGet reader p.1 with _ | q
    · rw [hgp] at h2
      cases h2
    · rw [hgp] at h2
      exact ⟨q, rfl, Option.some_injective _ h2⟩
  have hexlt : ∀ p ∈ stF.existing_id_to_materialized, p.2.offset_id < start := by
    intro p hp
    obtain ⟨q, hq, hqe⟩ := hgetr p hp
    have := hrs (p.1, q) (alGet_mem _ _ _ hq)
    rw [← hqe]
    exact this
  have hexpair : stF.existing_id_to_materialized.Pairwise
      (fun p q => p.2.offset_id ≠ q.2.offset_id) := by
    have hkpair : stF.existing_id_to_materialized.Pairwise
        (fun a b : String × MaterializedLogRecordV2 => a.1 ≠ b.1) :=
      (nodup_map_iff_pairwise stF.existing_id_to_materialized (fun x => x.1)).mp hexN
    refine List.Pairwise.imp_of_mem (fun hp hq hne heq => ?_) hkpair
    rename_i p q
    obtain ⟨qp, hqp, hqpe⟩ := hgetr p hp
    obtain ⟨qq, hqq, hqqe⟩ := hgetr q hq
    have hro' : (p.1, qp) ≠ (q.1, qq) := by
      intro hcon
      exact hne (Prod.ext_iff.mp hcon).1
    have hsym : Symmetric (fun x y : String × DataRecord × Nat => x.2.2 ≠ y.2.2) :=
      fun x y h => h.symm
    have hall := List.Pairwise.forall hsym ((nodup_map_iff_pairwise _ _).mp hro)
      (alGet_mem _ _ _ hqp) (alGet_mem _ _ _ hqq) hro'
    exact hall (by rw [show ((p.1, qp) : String × DataRecord × Nat).2.2 = qp.2 from rfl,
      show ((q.1, qq) : String × DataRecord × Nat).2.2 = qq.2 from rfl, hqpe, hqqe, heq])
  have hexnodup : ((alValues stF.existing_id_to_materialized).map
      (fun r => r.offset_id)).Nodup := by
    rw [alValues, List.map_map]
    exact (nodup_map_iff_pairwise _ _).mpr hexpair
  have hnewnodup : ((alValues stF.new_id_to_materialized).map
      (fun r => r.offset_id)).Nodup := by
    rw [alValues, List.map_map]
    exact hnd
  constructor
  · rw [collectOutput, List.map_append, List.nodup_append]
    refine ⟨hexnodup, hnewnodup, ?_⟩
    intro a ha hb
    obtain ⟨r, hr, rfl⟩ := List.mem_map.mp ha
    obtain ⟨p, hp, rfl⟩ := List.mem_map.mp hr
    obtain ⟨rq, hrq, hre⟩ := List.mem_map.mp hb
    obtain ⟨pq, hpq, hpe⟩ := List.mem_map.mp hrq
    have h1 := hexlt p hp
    have h2 := (hbound pq hpq).1
    rw [hpe] at h2
    rw [hre] at h2
    omega
  · intro r hr hnone
    rcases List.mem_append.mp hr with hrex | hrnew
    · obtain ⟨p, hp, rfl⟩ := List.mem_map.mp hrex
      obtain ⟨q, hq, hqe⟩ := hgetr p hp
      obtain ⟨h1, h2, h3⟩ := hexOk p hp
      rw [hq] at h1
      rw [hnone] at h1
      cases h1
    · obtain ⟨p, hp, rfl⟩ := List.mem_map.mp hrnew
      exact (hbound p hp).1

/-! ## Insert-branch and error-propagation helpers -/

theorem applyLog_insert_step (st : MatState) (lr : LogRecord)
    (hop : lr.record.operation = Operation.add ∨ lr.record.operation = Operation.upsert)
    (hex : alContains st.existing_id_to_materialized lr.record.id = false)
    (hnew : alContains st.new_id_to_materialized lr.record.id = false)
    (st1 : MatState) (h : applyLog st lr = .ok st1) :
    ∃ r0, materializedFromOperation lr.record st.curr_max_offset_id lr.record.id = .ok r0 ∧
      st1.existing_id_to_materialized = st.existing_id_to_materialized ∧
      alGet st1.new_id_to_materialized lr.record.id = some r0 := by
  have heq : applyLog st lr =
      match materializedFromOperation lr.record st.curr_max_offset_id lr.record.id with
      | .ok r =>
        .ok { st with
              new_id_to_materialized :=
                alInsert st.new_id_to_materialized lr.record.id r
              curr_max_offset_id := (st.curr_max_offset_id + 1) % 2 ^ 32 }
      | .error e => .error e := by
    rcases hop with hop | hop
    · exact applyLog_add_insert st lr hop hex hnew
    · exact applyLog_upsert_insert st lr hop hex hnew
  rw [heq] at h
  cases hmat : materializedFromOperation lr.record st.curr_max_offset_id lr.record.id with
  | error e =>
    rw [hmat] at h
    cases h
  | ok r =>
    rw [hmat] at h
    injection h with h
    subst h
    exact ⟨r, rfl, rfl, alGet_alInsert_self _ _ _⟩

theorem applyLog_insert_error (st : MatState) (lr : LogRecord)
    (e : LogMaterializerV2Error)
    (hop : lr.record.operation = Operation.add ∨ lr.record.operation = Operation.upsert)
    (hex : alContains st.existing_id_to_materialized lr.record.id = false)
    (hnew : alContains st.new_id_to_materialized lr.record.id = false)
    (he : materializedFromOperation lr.record st.curr_max_offset_id lr.record.id =
      .error e) :
    applyLog st lr = .error e := by
  have heq : applyLog st lr =
      match materializedFromOperation lr.record st.curr_max_offset_id lr.record.id with
      | .ok r =>
        .ok { st with
              new_id_to_materialized :=
                alInsert st.new_id_to_materialized lr.record.id r
              curr_max_offset_id := (st.curr_max_offset_id + 1) % 2 ^ 32 }
      | .error e => .error e := by
    rcases hop with hop | hop
    · exact applyLog_add_insert st lr hop hex hnew
    · exact applyLog_upsert_insert st lr hop hex hnew
  rw [heq, he]

theorem replayLogs_error_at (st st1 : MatState) (l1 : List LogRecord)
    (lr : LogRecord) (post : List LogRecord) (e : LogMaterializerV2Error)
    (h1 : replayLogs st l1 = .ok st1) (h2 : applyLog st1 lr = .error e) :
    replayLogs st (l1 ++ lr :: post) = .error e := by
  rw [replayLogs_append, h1]
  show replayLogs st1 (lr :: post) = .error e
  rw [replayLogs, h2]

/-! ## Counting the collaborator calls of the durable-origin pass -/

theorem duraPass_existsCalls (reader : RecordSegmentReader) (logs : List LogRecord) :
    (duraPass reader logs).existsCalls = logs.map (·.record.id) := by
  rw [duraPass, duraFold_existsCalls]
  rfl

theorem duraPass_lookupCalls (reader : RecordSegmentReader) (logs : List LogRecord) :
    (duraPass reader logs).lookupCalls =
      (logs.filter (fun lr => alContains reader lr.record.id)).map (·.record.id) := by
  rw [duraPass, duraFold_lookupCalls]
  rfl

theorem count_map_record_id (uid : String) (l : List LogRecord) :
    (l.map (·.record.id)).count uid =
      (l.filter (fun lr => lr.record.id == uid)).length := by
  induction l with
  | nil => rfl
  | cons lr rest ih =>
    rw [List.map_cons, List.count_cons, ih, List.filter_cons]
    by_cases hid : lr.record.id = uid <;> simp [hid]

theorem count_lookup_calls (reader : RecordSegmentReader) (uid : String)
    (l : List LogRecord) :
    ((l.filter (fun lr => alContains reader lr.record.id)).map (·.record.id)).count uid =
      if alContains reader uid = true
      then (l.filter (fun lr => lr.record.id == uid)).length
      else 0 := by
  induction l with
  | nil =>
    by_cases hc : alContains reader uid = true
    · rw [if_pos hc]
      rfl
    · rw [if_neg hc]
      rfl
  | cons lr rest ih =>
    rw [List.filter_cons]
    by_cases hcl : alContains reader lr.record.id = true
    · rw [if_pos hcl, List.map_cons, List.count_cons, ih]
      by_cases hc : alContains reader uid = true
      · rw [if_pos hc, if_pos hc, List.filter_cons]
        by_cases hid : lr.record.id = uid
        · have hb : (lr.record.id == uid) = true := by simp [hid]
          rw [hb, if_pos rfl, if_pos rfl, List.length_cons]
        · have hb : (lr.record.id == uid) = false := by simp [hid]
          rw [hb, if_neg Bool.false_ne_true, if_neg Bool.false_ne_true, Nat.add_zero]
      · rw [if_neg hc, if_neg hc]
        by_cases hid : lr.record.id = uid
        · rw [← hid] at hc
          exact absurd hcl hc
        · have hb : (lr.record.id == uid) = false := by simp [hid]
          rw [hb, if_neg Bool.false_ne_true]
    · rw [if_neg hcl, ih]
      by_cases hc : alContains reader uid = true
      · rw [if_pos hc, if_pos hc, List.filter_cons]
        by_cases hid : lr.record.id = uid
        · rw [← hid] at hc
          exact absurd hc hcl
        · have hb : (lr.record.id == uid) = false := by simp [hid]
          rw [hb, if_neg Bool.false_ne_true]
      · rw [if_neg hc, if_neg hc]

deriving instance DecidableEq for Except

/-- Destructing a successful materialization call: the final replay state
with its shape invariant. -/
theorem materializeV2_ok_destruct (reader : RecordSegmentReader)
    (logs : List LogRecord) (start : Nat) (out : List MaterializedLogRecordV2)
    (h : materializeV2 reader logs start = .ok out) :
    ∃ stF, replayLogs (initState reader logs start) logs = .ok stF ∧
      out = collectOutput stF ∧ InvBasic reader stF := by
  rw [materializeV2_eq] at h
  cases hrep : replayLogs (initState reader logs start) logs with
  | error e =>
    rw [hrep] at h
    cases h
  | ok stF =>
    rw [hrep] at h
    injection h with h
    exact ⟨stF, rfl, h.symm,
      replayLogs_inv_basic reader logs _ stF (initState_inv_basic reader logs start) hrep⟩

theorem mem_opsFor (l : List LogRecord) (uid : String) (op : OperationRecord)
    (h : op ∈ opsFor l uid) : ∃ lr ∈ l, lr.record = op ∧ lr.record.id = uid := by
  rw [opsFor] at h
  obtain ⟨lr, hlr, rfl⟩ := List.mem_map.mp h
  have hm := List.mem_filter.mp hlr
  exact ⟨lr, hm.1, rfl, by simpa using hm.2⟩

theorem opsFor_mem_of (l : List LogRecord) (uid : String) (lr : LogRecord)
    (hm : lr ∈ l) (hid : lr.record.id = uid) : lr.record ∈ opsFor l uid := by
  rw [opsFor]
  exact List.mem_map_of_mem _ (List.mem_filter.mpr ⟨hm, by simp [hid]⟩)

/-! # The claims

One theorem per claim of the specification review, each stated against
`materializeV2` (or, for the collaborator-call count, against `duraPass`,
and for the Upsert dispatch, against a single `applyLog` step). -/

/-- C10: every record of a successful output that has no durable origin
(`data_record = none`) carries an embedding: insertion demands one, and
later Update/Upsert operations only overwrite it with a non-null value. -/
theorem materializeV2_new_records_have_embedding (reader : RecordSegmentReader)
    (logs : List LogRecord) (start : Nat) (out : List MaterializedLogRecordV2)
    (hok : materializeV2 reader logs start = .ok out) :
    ∀ r ∈ out, r.data_record = none → r.final_embedding.isSome = true := by
  obtain ⟨stF, hrep, rfl, hinv⟩ := materializeV2_ok_destruct reader logs start _ hok
  obtain ⟨hexN, hnewN, hdisj, hexOk, hnewOk⟩ := hinv
  intro r hr hnone
  rcases List.mem_append.mp hr with hrex | hrnew
  · obtain ⟨p, hp, rfl⟩ := List.mem_map.mp hrex
    obtain ⟨h1, h2, h3⟩ := hexOk p hp
    rcases hgp : alGet reader p.1 with _ | q
    · rw [hgp] at h2
      cases h2
    · rw [hgp] at h1
      rw [hnone] at h1
      cases h1
  · obtain ⟨p, hp, rfl⟩ := List.mem_map.mp hrnew
    exact (hnewOk p hp).2.2.2

/-- C10 witness. -/
theorem materializeV2_new_records_have_embedding_witness :
    materializeV2 [] [⟨1, ⟨"a", some [1], none, none, .add⟩⟩] 0 =
      .ok [⟨none, 0, some "a", .add, none, none, some [1]⟩] ∧
    ∀ r ∈ [(⟨none, 0, some "a", .add, none, none, some [1]⟩ : MaterializedLogRecordV2)],
      r.data_record = none → r.final_embedding.isSome = true :=
  ⟨by decide,
   materializeV2_new_records_have_embedding [] [⟨1, ⟨"a", some [1], none, none, .add⟩⟩] 0
     [⟨none, 0, some "a", .add, none, none, some [1]⟩] (by decide)⟩

/-- C4 (amended): the durable-origin pass queries the Segment Lookup
Collaborator once per occurrence of an identifier in the batch — `k`
`exists` calls for `k` occurrences, plus `k` `lookup` calls when the
identifier exists durably — not once per distinct identifier. -/
theorem duraPass_call_counts (reader : RecordSegmentReader) (logs : List LogRecord)
    (uid : String) :
    (duraPass reader logs).existsCalls.count uid =
      (logs.filter (fun lr => lr.record.id == uid)).length ∧
    (duraPass reader logs).lookupCalls.count uid =
      (if alContains reader uid = true
       then (logs.filter (fun lr => lr.record.id == uid)).length
       else 0) := by
  constructor
  · rw [duraPass_existsCalls, count_map_record_id]
  · rw [duraPass_lookupCalls, count_lookup_calls]

/-- C4 counterexample: for an identifier occurring twice in the batch, the
collaborator's `exists` is called twice, not exactly once as the claim
states. -/
theorem duraPass_call_counts_counterexample :
    (duraPass [("a", ⟨"a", [1], none, none⟩, 1)]
      [⟨1, ⟨"a", none, none, none, .update⟩⟩,
       ⟨2, ⟨"a", none, none, none, .update⟩⟩]).existsCalls.count "a" = 2 ∧
    (2 : Nat) ≠ 1 := by
  constructor
  · decide
  · decide

/-- C1 (amended): for a batch that materializes successfully — against a
segment whose offsets are pairwise distinct and all below the allocator's
starting value, and small enough not to wrap the 32-bit counter — all
`offset_id` values in the output are pairwise distinct, and every
`offset_id` of a newly inserted record is greater than **or equal to** the
allocator's starting value (the first allocation returns the starting
value itself, since `fetch_add` yields the pre-increment value). -/
theorem materializeV2_offset_uniqueness (reader : RecordSegmentReader)
    (logs : List LogRecord) (start : Nat) (out : List MaterializedLogRecordV2)
    (hro : (reader.map (fun p => p.2.2)).Nodup)
    (hrs : ∀ p ∈ reader, p.2.2 < start)
    (hlen : start + logs.length < 2 ^ 32)
    (hok : materializeV2 reader logs start = .ok out) :
    (out.map (fun r => r.offset_id)).Nodup ∧
    ∀ r ∈ out, r.data_record = none → start ≤ r.offset_id := by
  obtain ⟨stF, hrep, rfl, hinv⟩ := materializeV2_ok_destruct reader logs start _ hok
  have ho : InvOffsets start stF := (replayLogs_inv_offsets start logs
    (initState reader logs start) stF (initState_inv_offsets reader logs start)
    hlen hrep).1
  exact output_offsets reader stF start hro hrs hinv ho

/-- C1 witness. -/
theorem materializeV2_offset_uniqueness_witness :
    materializeV2 [("e", ⟨"e", [5], none, none⟩, 1)]
      [⟨1, ⟨"a", some [1], none, none, .add⟩⟩] 2 =
      .ok [⟨none, 2, some "a", .add, none, none, some [1]⟩] ∧
    (([(⟨none, 2, some "a", .add, none, none, some [1]⟩ :
        MaterializedLogRecordV2)].map (fun r => r.offset_id)).Nodup ∧
      ∀ r ∈ [(⟨none, 2, some "a", .add, none, none, some [1]⟩ :
        MaterializedLogRecordV2)], r.data_record = none → 2 ≤ r.offset_id) :=
  ⟨by decide,
   materializeV2_offset_uniqueness [("e", ⟨"e", [5], none, none⟩, 1)]
     [⟨1, ⟨"a", some [1], none, none, .add⟩⟩] 2
     [⟨none, 2, some "a", .add, none, none, some [1]⟩]
     (by decide) (by decide) (by decide) (by decide)⟩

/-- C1 counterexample: the first offset allocated for a new insert equals
the allocator's starting value (not strictly greater), and without an
assumption relating segment offsets to the allocator the output offsets
can collide. -/
theorem materializeV2_offset_uniqueness_counterexample :
    materializeV2 [] [⟨1, ⟨"a", some [1], none, none, .add⟩⟩] 3 =
      .ok [⟨none, 3, some "a", .add, none, none, some [1]⟩] ∧
    ¬ (3 : Nat) < 3 ∧
    materializeV2 [("e", ⟨"e", [1], none, none⟩, 3)]
      [⟨1, ⟨"e", none, none, none, .update⟩⟩,
       ⟨2, ⟨"b", some [1], none, none, .add⟩⟩] 3 =
      .ok [⟨some ⟨"e", [1], none, none⟩, 3, none, .update, none, none, none⟩,
           ⟨none, 3, some "b", .add, none, none, some [1]⟩] ∧
    ¬ ([3, 3] : List Nat).Nodup := by
  refine ⟨by decide, by decide, by decide, ?_⟩
  decide

/-- C2: an identifier with a durable origin at offset `o` that receives a
Delete, with no later operation changing its state (only further Adds —
which are ignored — or Deletes may follow), yields exactly one output
record: `offset_id = o`, `final_operation = Delete`, document, embedding,
merged metadata and user id all `none`, and the origin still populated. -/
theorem materializeV2_durable_delete (reader : RecordSegmentReader)
    (pre post : List LogRecord) (del : LogRecord) (uid : String)
    (d : DataRecord) (o : Nat) (start : Nat) (out : List MaterializedLogRecordV2)
    (hwf : readerIdsOk reader)
    (hdel_id : del.record.id = uid)
    (hdel_op : del.record.operation = Operation.delete)
    (hg : alGet reader uid = some (d, o))
    (hpost : ∀ lr ∈ post, lr.record.id = uid →
      lr.record.operation ≠ Operation.update ∧ lr.record.operation ≠ Operation.upsert)
    (hok : materializeV2 reader (pre ++ del :: post) start = .ok out) :
    recordsFor out uid =
      [{ data_record := some d, offset_id := o, user_id := none,
         final_operation := Operation.delete, metadata_to_be_merged := none,
         final_document := none, final_embedding := none }] := by
  have hpost' : ∀ lr ∈ post, lr.record.id = uid →
      lr.record.operation = Operation.add ∨ lr.record.operation = Operation.delete := by
    intro lr hm hid
    obtain ⟨h1, h2⟩ := hpost lr hm hid
    cases hop : lr.record.operation
    · exact Or.inl rfl
    · exact absurd hop h1
    · exact Or.inr rfl
    · exact absurd hop h2
  exact (durable_delete_general reader pre post del uid d o start out hwf
    hdel_id hdel_op hg hpost' hok).1

/-- C2 witness. -/
theorem materializeV2_durable_delete_witness :
    materializeV2 [("id1", ⟨"id1", [1, 2, 3], none, some "doc"⟩, 5)]
      [⟨1, ⟨"id1", none, none, none, .delete⟩⟩] 6 =
      .ok [⟨some ⟨"id1", [1, 2, 3], none, some "doc"⟩, 5, none, .delete,
        none, none, none⟩] ∧
    recordsFor [⟨some ⟨"id1", [1, 2, 3], none, some "doc"⟩, 5, none, .delete,
        none, none, none⟩] "id1" =
      [{ data_record := some ⟨"id1", [1, 2, 3], none, some "doc"⟩, offset_id := 5,
         user_id := none, final_operation := Operation.delete,
         metadata_to_be_merged := none, final_document := none,
         final_embedding := none }] :=
  ⟨by decide,
   materializeV2_durable_delete [("id1", ⟨"id1", [1, 2, 3], none, some "doc"⟩, 5)]
     [] [] ⟨1, ⟨"id1", none, none, none, .delete⟩⟩ "id1"
     ⟨"id1", [1, 2, 3], none, some "doc"⟩ 5 6
     [⟨some ⟨"id1", [1, 2, 3], none, some "doc"⟩, 5, none, .delete, none, none, none⟩]
     (by decide) (by decide) (by decide) (by decide) (by decide) (by decide)⟩

/-- C8 (amended): a Delete of a durable-origin identifier followed later
by an Add of the same identifier, with no Update or Upsert for it after
the Delete: the Add is silently ignored — no output record carries that
identifier as a fresh `user_id` — and the single output record for the
identifier keeps `final_operation = Delete` with all payload fields
`none`. -/
theorem materializeV2_delete_then_add (reader : RecordSegmentReader)
    (pre post : List LogRecord) (del : LogRecord) (uid : String)
    (d : DataRecord) (o : Nat) (start : Nat) (out : List MaterializedLogRecordV2)
    (hwf : readerIdsOk reader)
    (hdel_id : del.record.id = uid)
    (hdel_op : del.record.operation = Operation.delete)
    (hg : alGet reader uid = some (d, o))
    (hadd : ∃ a ∈ post, a.record.id = uid ∧ a.record.operation = Operation.add)
    (hpost : ∀ lr ∈ post, lr.record.id = uid →
      lr.record.operation ≠ Operation.update ∧ lr.record.operation ≠ Operation.upsert)
    (hok : materializeV2 reader (pre ++ del :: post) start = .ok out) :
    recordsFor out uid =
      [{ data_record := some d, offset_id := o, user_id := none,
         final_operation := Operation.delete, metadata_to_be_merged := none,
         final_document := none, final_embedding := none }] ∧
    ∀ r ∈ out, r.user_id ≠ some uid := by
  have hpost' : ∀ lr ∈ post, lr.record.id = uid →
      lr.record.operation = Operation.add ∨ lr.record.operation = Operation.delete := by
    intro lr hm hid
    obtain ⟨h1, h2⟩ := hpost lr hm hid
    cases hop : lr.record.operation
    · exact Or.inl rfl
    · exact absurd hop h1
    · exact Or.inr rfl
    · exact absurd hop h2
  exact durable_delete_general reader pre post del uid d o start out hwf
    hdel_id hdel_op hg hpost' hok

/-- C8 witness. -/
theorem materializeV2_delete_then_add_witness :
    materializeV2 [("e", ⟨"e", [1], none, none⟩, 3)]
      [⟨1, ⟨"e", none, none, none, .delete⟩⟩,
       ⟨2, ⟨"e", some [9], none, none, .add⟩⟩] 4 =
      .ok [⟨some ⟨"e", [1], none, none⟩, 3, none, .delete, none, none, none⟩] ∧
    (recordsFor [⟨some ⟨"e", [1], none, none⟩, 3, none, .delete, none, none, none⟩]
        "e" =
      [{ data_record := some ⟨"e", [1], none, none⟩, offset_id := 3,
         user_id := none, final_operation := Operation.delete,
         metadata_to_be_merged := none, final_document := none,
         final_embedding := none }] ∧
     ∀ r ∈ [(⟨some ⟨"e", [1], none, none⟩, 3, none, .delete, none, none, none⟩ :
        MaterializedLogRecordV2)], r.user_id ≠ some "e") :=
  ⟨by decide,
   materializeV2_delete_then_add [("e", ⟨"e", [1], none, none⟩, 3)]
     [] [⟨2, ⟨"e", some [9], none, none, .add⟩⟩]
     ⟨1, ⟨"e", none, none, none, .delete⟩⟩ "e" ⟨"e", [1], none, none⟩ 3 4
     [⟨some ⟨"e", [1], none, none⟩, 3, none, .delete, none, none, none⟩]
     (by decide) (by decide) (by decide) (by decide) (by decide) (by decide)
     (by decide)⟩

/-- C8 counterexample: with an Update after the Delete-then-Add, the
output record's operation is Update, not Delete, so the claim as stated
(for batches merely containing a Delete followed by an Add) fails. -/
theorem materializeV2_delete_then_add_counterexample :
    materializeV2 [("e", ⟨"e", [1], none, none⟩, 3)]
      [⟨1, ⟨"e", none, none, none, .delete⟩⟩,
       ⟨2, ⟨"e", some [9], none, none, .add⟩⟩,
       ⟨3, ⟨"e", none, none, some "d", .update⟩⟩] 4 =
      .ok [⟨some ⟨"e", [1], none, none⟩, 3, none, .update, none, some "d", none⟩] ∧
    Operation.update ≠ Operation.delete := by
  constructor
  · decide
  · decide

/-- C3 (amended): an identifier with no durable origin that is Added and
subsequently Deleted, with no Add or Upsert for it after the Delete,
produces no output record at all. -/
theorem materializeV2_add_delete_no_record (reader : RecordSegmentReader)
    (pre post : List LogRecord) (del : LogRecord) (uid : String)
    (start : Nat) (out : List MaterializedLogRecordV2)
    (hwf : readerIdsOk reader)
    (hg : alGet reader uid = none)
    (hdel_id : del.record.id = uid)
    (hdel_op : del.record.operation = Operation.delete)
    (hadd : ∃ a ∈ pre, a.record.id = uid ∧ a.record.operation = Operation.add)
    (hpost : ∀ lr ∈ post, lr.record.id = uid →
      lr.record.operation ≠ Operation.add ∧ lr.record.operation ≠ Operation.upsert)
    (hok : materializeV2 reader (pre ++ del :: post) start = .ok out) :
    recordsFor out uid = [] := by
  obtain ⟨stF, hrep, rfl, hinvF⟩ := materializeV2_ok_destruct reader _ start _ hok
  obtain ⟨st1, h1, hrest⟩ := replayLogs_append_ok _ _ _ _ hrep
  obtain ⟨st2, hstep, hpost'⟩ := replayLogs_cons_ok _ _ _ _ hrest
  have hkeys := replayLogs_existing_keys pre _ st1 h1
  have hex0 : alContains
      (initState reader (pre ++ del :: post) start).existing_id_to_materialized
      uid = false := by
    rw [alContains, initState_get_none reader _ start uid hg]
    rfl
  have hex1 : alContains st1.existing_id_to_materialized uid = false := by
    rw [alContains_keys_congr _ _ uid hkeys]
    exact hex0
  have hkeys2 := applyLog_existing_keys st1 st2 del hstep
  have hex2 : alContains st2.existing_id_to_materialized uid = false := by
    rw [alContains_keys_congr _ _ uid hkeys2]
    exact hex1
  have hnew2 : alContains st2.new_id_to_materialized uid = false := by
    by_cases hn1 : alContains st1.new_id_to_materialized uid = true
    · rw [applyLog_delete_new st1 del hdel_op (by rw [hdel_id]; exact hn1)] at hstep
      injection hstep with hstep
      subst hstep
      show alContains (alRemove st1.new_id_to_materialized del.record.id) uid = false
      rw [hdel_id, alContains_alRemove, if_pos rfl]
    · have hn1' : alContains st1.new_id_to_materialized uid = false := by
        simpa using hn1
      rw [applyLog_delete_none st1 del hdel_op (by rw [hdel_id]; exact hn1')
        (by rw [hdel_id]; exact hex1)] at hstep
      injection hstep with hstep
      subst hstep
      exact hn1'
  have hpost2 : ∀ lr ∈ post, lr.record.id = uid →
      lr.record.operation = Operation.update ∨ lr.record.operation = Operation.delete := by
    intro lr hm hid
    obtain ⟨h1', h2'⟩ := hpost lr hm hid
    cases hop : lr.record.operation
    · exact absurd hop h1'
    · exact Or.inl rfl
    · exact Or.inr rfl
    · exact absurd hop h2'
  obtain ⟨hexF, hnewF⟩ := replayLogs_keep_absent uid post hpost2 st2 stF hex2 hnew2 hpost'
  rw [recordsFor_collect reader stF uid hwf hinvF,
    alGet_eq_none_of_not_contains _ _ hexF, alGet_eq_none_of_not_contains _ _ hnewF]
  rfl

/-- C3 witness. -/
theorem materializeV2_add_delete_no_record_witness :
    materializeV2 [] [⟨1, ⟨"x", some [1], none, none, .add⟩⟩,
      ⟨2, ⟨"x", none, none, none, .delete⟩⟩] 0 = .ok [] ∧
    recordsFor [] "x" = [] :=
  ⟨by decide,
   materializeV2_add_delete_no_record [] [⟨1, ⟨"x", some [1], none, none, .add⟩⟩]
     [] ⟨2, ⟨"x", none, none, none, .delete⟩⟩ "x" 0 []
     (by decide) (by decide) (by decide) (by decide)
     ⟨⟨1, ⟨"x", some [1], none, none, .add⟩⟩, by decide, by decide, by decide⟩
     (by decide) (by decide)⟩

/-- C3 counterexample: a batch that Adds, Deletes and then re-Adds an
identifier with no durable origin produces one output record for it, so
the claim as stated (for every batch containing an Add then a Delete)
fails. -/
theorem materializeV2_add_delete_no_record_counterexample :
    materializeV2 [] [⟨1, ⟨"x", some [1], none, none, .add⟩⟩,
      ⟨2, ⟨"x", none, none, none, .delete⟩⟩,
      ⟨3, ⟨"x", some [2], none, none, .add⟩⟩] 0 =
      .ok [⟨none, 1, some "x", .add, none, none, some [2]⟩] ∧
    recordsFor [⟨none, 1, some "x", .add, none, none, some [2]⟩] "x" ≠ [] := by
  constructor
  · decide
  · decide

/-- C5: an identifier with no durable origin that is inserted (Add or
Upsert-as-insert) and then receives Update operations (never a Delete)
yields exactly one output record; that record is the per-entry fold of its
later operations over the freshly inserted entry — so metadata, document
and embedding absorb the updates — and its `final_operation` remains
`Add`, not `Update`. -/
theorem materializeV2_update_after_insert (reader : RecordSegmentReader)
    (pre post : List LogRecord) (ins : LogRecord) (uid : String)
    (start : Nat) (out : List MaterializedLogRecordV2)
    (hwf : readerIdsOk reader)
    (hg : alGet reader uid = none)
    (hins_id : ins.record.id = uid)
    (hins_op : ins.record.operation = Operation.add ∨
      ins.record.operation = Operation.upsert)
    (hpre : ∀ lr ∈ pre, lr.record.id = uid →
      lr.record.operation ≠ Operation.add ∧ lr.record.operation ≠ Operation.upsert)
    (hpost_del : ∀ lr ∈ post, lr.record.id = uid →
      lr.record.operation ≠ Operation.delete)
    (hupd : ∃ u ∈ post, u.record.id = uid ∧ u.record.operation = Operation.update)
    (hok : materializeV2 reader (pre ++ ins :: post) start = .ok out) :
    ∃ r0, (∃ o, materializedFromOperation ins.record o uid = .ok r0) ∧
      recordsFor out uid = [(opsFor post uid).foldl newReplayEntry r0] ∧
      ((opsFor post uid).foldl newReplayEntry r0).final_operation = Operation.add := by
  obtain ⟨stF, hrep, rfl, hinvF⟩ := materializeV2_ok_destruct reader _ start _ hok
  obtain ⟨st1, h1, hrest⟩ := replayLogs_append_ok _ _ _ _ hrep
  obtain ⟨st2, hstep, hpost'⟩ := replayLogs_cons_ok _ _ _ _ hrest
  have hkeys := replayLogs_existing_keys pre _ st1 h1
  have hex0 : alContains
      (initState reader (pre ++ ins :: post) start).existing_id_to_materialized
      uid = false := by
    rw [alContains, initState_get_none reader _ start uid hg]
    rfl
  have hex1 : alContains st1.existing_id_to_materialized uid = false := by
    rw [alContains_keys_congr _ _ uid hkeys]
    exact hex0
  have hnew1 : alContains st1.new_id_to_materialized uid = false := by
    by_cases hn : alContains st1.new_id_to_materialized uid = true
    · exfalso
      rcases replayLogs_new_provenance uid pre _ st1 h1 hn with hn0 | ⟨x, hx, hxi, hxo⟩
      · rw [show (initState reader (pre ++ ins :: post) start).new_id_to_materialized
          = [] from rfl] at hn0
        cases hn0
      · obtain ⟨ha, hu⟩ := hpre x hx hxi
        rcases hxo with hxo | hxo
        · exact ha hxo
        · exact hu hxo
    · simpa using hn
  obtain ⟨r0, hmat, hexeq, hget2⟩ := applyLog_insert_step st1 ins hins_op
    (by rw [hins_id]; exact hex1) (by rw [hins_id]; exact hnew1) st2 hstep
  rw [hins_id] at hmat hget2
  have hex2 : alContains st2.existing_id_to_materialized uid = false := by
    rw [hexeq]
    exact hex1
  obtain ⟨hexF, hgetF⟩ := replayLogs_track_new uid post hpost_del st2 stF r0
    hex2 hget2 hpost'
  refine ⟨r0, ⟨st1.curr_max_offset_id, hmat⟩, ?_, ?_⟩
  · rw [recordsFor_collect reader stF uid hwf hinvF,
      alGet_eq_none_of_not_contains _ _ hexF, hgetF]
    rfl
  · rw [foldl_newReplayEntry_final_operation]
    exact (materializedFromOperation_ok _ _ _ _ hmat).2.2.2.1

/-- C5 witness. -/
theorem materializeV2_update_after_insert_witness :
    materializeV2 [] [⟨1, ⟨"a", some [1], none, none, .add⟩⟩,
      ⟨2, ⟨"a", none, none, some "d", .update⟩⟩] 0 =
      .ok [⟨none, 0, some "a", .add, none, some "d", some [1]⟩] ∧
    (∃ r0, (∃ o, materializedFromOperation ⟨"a", some [1], none, none, .add⟩ o "a" =
        .ok r0) ∧
      recordsFor [⟨none, 0, some "a", .add, none, some "d", some [1]⟩] "a" =
        [(opsFor [⟨2, ⟨"a", none, none, some "d", .update⟩⟩] "a").foldl
          newReplayEntry r0] ∧
      ((opsFor [⟨2, ⟨"a", none, none, some "d", .update⟩⟩] "a").foldl
        newReplayEntry r0).final_operation = Operation.add) :=
  ⟨by decide,
   materializeV2_update_after_insert [] [] [⟨2, ⟨"a", none, none, some "d", .update⟩⟩]
     ⟨1, ⟨"a", some [1], none, none, .add⟩⟩ "a" 0
     [⟨none, 0, some "a", .add, none, some "d", some [1]⟩]
     (by decide) (by decide) (by decide) (by decide) (by decide) (by decide)
     ⟨⟨2, ⟨"a", none, none, some "d", .update⟩⟩, by decide, by decide, by decide⟩
     (by decide)⟩

/-- C6: dispatch of an Upsert replay step.  On an identifier present in
the "existing" table it sets `final_operation = Upsert`; on one present
only in the "new" table it leaves `final_operation` at `Add`; on one in
neither table it behaves exactly like Add — same program step — allocating
the current counter value as fresh `offset_id`, setting `user_id`, and
leaving `final_operation = Add`. -/
theorem applyLog_upsert_dispatch (reader : RecordSegmentReader) (st : MatState)
    (lr : LogRecord) (hop : lr.record.operation = Operation.upsert)
    (hinv : InvBasic reader st) :
    (alContains st.existing_id_to_materialized lr.record.id = true →
      ∃ st', applyLog st lr = .ok st' ∧
        (alGet st'.existing_id_to_materialized lr.record.id).map
          (fun r => r.final_operation) = some Operation.upsert) ∧
    (alContains st.existing_id_to_materialized lr.record.id = false →
     alContains st.new_id_to_materialized lr.record.id = true →
      ∃ st', applyLog st lr = .ok st' ∧
        (alGet st'.new_id_to_materialized lr.record.id).map
          (fun r => r.final_operation) = some Operation.add) ∧
    (alContains st.existing_id_to_materialized lr.record.id = false →
     alContains st.new_id_to_materialized lr.record.id = false →
      applyLog st lr =
        applyLog st { lr with record := { lr.record with operation := Operation.add } } ∧
      ∀ st', applyLog st lr = .ok st' →
        ∃ r, alGet st'.new_id_to_materialized lr.record.id = some r ∧
          r.offset_id = st.curr_max_offset_id ∧ r.user_id = some lr.record.id ∧
          r.final_operation = Operation.add) := by
  obtain ⟨hexN, hnewN, hdisj, hexOk, hnewOk⟩ := hinv
  refine ⟨?_, ?_, ?_⟩
  · intro hex
    obtain ⟨r1, hr1⟩ := Option.isSome_iff_exists.mp hex
    refine ⟨_, applyLog_upsert_existing st lr hop hex, ?_⟩
    show (alGet (alModify st.existing_id_to_materialized lr.record.id
      (fun r => { updatePayload r lr.record with final_operation := .upsert }))
      lr.record.id).map (fun r => r.final_operation) = some Operation.upsert
    rw [alGet_alModify_self, hr1]
    rfl
  · intro hex hnew
    obtain ⟨r1, hr1⟩ := Option.isSome_iff_exists.mp hnew
    have hmem : (lr.record.id, r1) ∈ st.new_id_to_materialized := alGet_mem _ _ _ hr1
    have hop1 : r1.final_operation = Operation.add := (hnewOk _ hmem).2.2.1
    refine ⟨_, applyLog_upsert_new st lr hop hex hnew, ?_⟩
    show (alGet (alModify st.new_id_to_materialized lr.record.id
      (fun r => updatePayload r lr.record)) lr.record.id).map
      (fun r => r.final_operation) = some Operation.add
    rw [alGet_alModify_self, hr1]
    show some (updatePayload r1 lr.record).final_operation = some Operation.add
    rw [updatePayload_final_operation, hop1]
  · intro hex hnew
    constructor
    · rw [applyLog_upsert_insert st lr hop hex hnew,
        applyLog_add_insert st { lr with record := { lr.record with operation := Operation.add } }
          rfl hex hnew]
      rfl
    · intro st' h
      obtain ⟨r, hmat, hexeq, hget⟩ := applyLog_insert_step st lr (Or.inr hop)
        hex hnew st' h
      obtain ⟨h1, h2, h3, h4, h5, h6, h7⟩ := materializedFromOperation_ok _ _ _ _ hmat
      exact ⟨r, hget, h2, h3, h4⟩

/-- C6 witness. -/
theorem applyLog_upsert_dispatch_witness :
    ((alContains (⟨[], [], 0⟩ : MatState).existing_id_to_materialized
        (⟨1, ⟨"u", some [1], none, none, .upsert⟩⟩ : LogRecord).record.id = true →
      ∃ st', applyLog ⟨[], [], 0⟩ ⟨1, ⟨"u", some [1], none, none, .upsert⟩⟩ = .ok st' ∧
        (alGet st'.existing_id_to_materialized "u").map
          (fun r => r.final_operation) = some Operation.upsert) ∧
     (alContains (⟨[], [], 0⟩ : MatState).existing_id_to_materialized "u" = false →
      alContains (⟨[], [], 0⟩ : MatState).new_id_to_materialized "u" = true →
      ∃ st', applyLog ⟨[], [], 0⟩ ⟨1, ⟨"u", some [1], none, none, .upsert⟩⟩ = .ok st' ∧
        (alGet st'.new_id_to_materialized "u").map
          (fun r => r.final_operation) = some Operation.add) ∧
     (alContains (⟨[], [], 0⟩ : MatState).existing_id_to_materialized "u" = false →
      alContains (⟨[], [], 0⟩ : MatState).new_id_to_materialized "u" = false →
      applyLog ⟨[], [], 0⟩ ⟨1, ⟨"u", some [1], none, none, .upsert⟩⟩ =
        applyLog ⟨[], [], 0⟩ ⟨1, ⟨"u", some [1], none, none, .add⟩⟩ ∧
      ∀ st', applyLog ⟨[], [], 0⟩ ⟨1, ⟨"u", some [1], none, none, .upsert⟩⟩ = .ok st' →
        ∃ r, alGet st'.new_id_to_materialized "u" = some r ∧
          r.offset_id = 0 ∧ r.user_id = some "u" ∧
          r.final_operation = Operation.add)) :=
  applyLog_upsert_dispatch [] ⟨[], [], 0⟩ ⟨1, ⟨"u", some [1], none, none, .upsert⟩⟩
    (by decide) (by decide)

/-- C7 (amended): an Add — or an Upsert acting as an insert — for an
identifier absent from the durable segment and not previously inserted in
the batch, carrying no embedding, makes the whole call fail with
`EmbeddingMaterializationError` (and hence return no output), provided its
metadata patch (if any) coerces successfully and no earlier operation in
the batch fails. -/
theorem materializeV2_missing_embedding (reader : RecordSegmentReader)
    (pre post : List LogRecord) (bad : LogRecord) (start : Nat)
    (hg : alGet reader bad.record.id = none)
    (hop : bad.record.operation = Operation.add ∨
      bad.record.operation = Operation.upsert)
    (hpre : ∀ lr ∈ pre, lr.record.id = bad.record.id →
      lr.record.operation ≠ Operation.add ∧ lr.record.operation ≠ Operation.upsert)
    (hcoerce : coercionOk bad.record.metadata = true)
    (hemb : bad.record.embedding = none)
    (hpre_ok : ∃ st1,
      replayLogs (initState reader (pre ++ bad :: post) start) pre = .ok st1) :
    materializeV2 reader (pre ++ bad :: post) start =
      .error .embeddingMaterializationError := by
  obtain ⟨st1, h1⟩ := hpre_ok
  have hkeys := replayLogs_existing_keys pre _ st1 h1
  have hex0 : alContains
      (initState reader (pre ++ bad :: post) start).existing_id_to_materialized
      bad.record.id = false := by
    rw [alContains, initState_get_none reader _ start bad.record.id hg]
    rfl
  have hex1 : alContains st1.existing_id_to_materialized bad.record.id = false := by
    rw [alContains_keys_congr _ _ bad.record.id hkeys]
    exact hex0
  have hnew1 : alContains st1.new_id_to_materialized bad.record.id = false := by
    by_cases hn : alContains st1.new_id_to_materialized bad.record.id = true
    · exfalso
      rcases replayLogs_new_provenance bad.record.id pre _ st1 h1 hn with
        hn0 | ⟨x, hx, hxi, hxo⟩
      · rw [show (initState reader (pre ++ bad :: post) start).new_id_to_materialized
          = [] from rfl] at hn0
        cases hn0
      · obtain ⟨ha, hu⟩ := hpre x hx hxi
        rcases hxo with hxo | hxo
        · exact ha hxo
        · exact hu hxo
    · simpa using hn
  have herr := applyLog_insert_error st1 bad .embeddingMaterializationError hop
    hex1 hnew1
    (materializedFromOperation_missing_embedding bad.record
      st1.curr_max_offset_id bad.record.id hcoerce hemb)
  have hrep := replayLogs_error_at _ st1 pre bad post _ h1 herr
  rw [materializeV2_eq, hrep]

/-- C7 witness. -/
theorem materializeV2_missing_embedding_witness :
    materializeV2 [] [⟨1, ⟨"a", none, none, none, .add⟩⟩] 0 =
      .error .embeddingMaterializationError :=
  materializeV2_missing_embedding [] [] [] ⟨1, ⟨"a", none, none, none, .add⟩⟩ 0
    (by decide) (by decide) (by decide) (by decide) (by decide)
    ⟨initState [] [⟨1, ⟨"a", none, none, none, .add⟩⟩] 0, rfl⟩

/-- C7 counterexample: an Add carrying no embedding but also an
uncoercible metadata patch fails with `MetadataMaterializationError`, not
`EmbeddingMaterializationError` — the metadata coercion is checked first —
so the claim as stated fails. -/
theorem materializeV2_missing_embedding_counterexample :
    materializeV2 []
      [⟨1, ⟨"a", none, some [("k", .noneValue)], none, .add⟩⟩] 0 =
      .error (.metadataMaterializationError .invalidValue) ∧
    LogMaterializerV2Error.metadataMaterializationError .invalidValue ≠
      LogMaterializerV2Error.embeddingMaterializationError := by
  constructor
  · decide
  · decide

/-- C9 (amended): a Delete of a durable-origin identifier followed by one
or more Updates — with no further Delete or Upsert of that identifier
after that Delete (later Adds are ignored) — yields exactly one output
record: the per-entry fold of the post-Delete operations over the fully
deleted entry.  Its `final_operation` is `Update`, and its merged metadata
is the fold of exactly the metadata patches of the post-Delete Updates,
starting from the `none` base left by the Delete. -/
theorem materializeV2_delete_then_update (reader : RecordSegmentReader)
    (pre post : List LogRecord) (del : LogRecord) (uid : String)
    (d : DataRecord) (o : Nat) (start : Nat) (out : List MaterializedLogRecordV2)
    (hwf : readerIdsOk reader)
    (hdel_id : del.record.id = uid)
    (hdel_op : del.record.operation = Operation.delete)
    (hg : alGet reader uid = some (d, o))
    (hpost : ∀ lr ∈ post, lr.record.id = uid →
      lr.record.operation = Operation.add ∨ lr.record.operation = Operation.update)
    (hupd : ∃ u ∈ post, u.record.id = uid ∧ u.record.operation = Operation.update)
    (hok : materializeV2 reader (pre ++ del :: post) start = .ok out) :
    recordsFor out uid = [(opsFor post uid).foldl exReplayEntry (deletedOf d o)] ∧
    ((opsFor post uid).foldl exReplayEntry (deletedOf d o)).final_operation =
      Operation.update ∧
    ((opsFor post uid).foldl exReplayEntry (deletedOf d o)).metadata_to_be_merged =
      (updatePatches (opsFor post uid)).foldl merge_update_metadata none := by
  obtain ⟨stF, hrep, rfl, hinvF⟩ := materializeV2_ok_destruct reader _ start _ hok
  obtain ⟨st1, h1, hrest⟩ := replayLogs_append_ok _ _ _ _ hrep
  obtain ⟨st2, hstep, hpost'⟩ := replayLogs_cons_ok _ _ _ _ hrest
  have hinv1 : InvBasic reader st1 := replayLogs_inv_basic reader pre _ st1
    (initState_inv_basic _ _ _) h1
  have hkeys := replayLogs_existing_keys pre _ st1 h1
  have hc0 : alContains
      (initState reader (pre ++ del :: post) start).existing_id_to_materialized
      uid = true := by
    rw [alContains, initState_get_existing reader _ start uid d o hg
      ⟨del, by simp, hdel_id⟩]
    rfl
  have hc1 : alContains st1.existing_id_to_materialized uid = true := by
    rw [alContains_keys_congr _ _ uid hkeys]
    exact hc0
  obtain ⟨r1, hr1⟩ := Option.isSome_iff_exists.mp hc1
  have hmem1 : (uid, r1) ∈ st1.existing_id_to_materialized := alGet_mem _ _ _ hr1
  have hok1 : existingEntryOk reader uid r1 := hinv1.2.2.2.1 (uid, r1) hmem1
  have hnc1 : alContains st1.new_id_to_materialized uid = false :=
    hinv1.2.2.1 (uid, r1) hmem1
  have hdeleq := applyLog_delete_existing st1 del hdel_op
    (by rw [hdel_id]; exact hnc1) (by rw [hdel_id]; exact hc1)
  rw [hdeleq] at hstep
  injection hstep with hstep
  subst hstep
  have hget2 : alGet (alModify st1.existing_id_to_materialized del.record.id
      deleteEntry) uid = some (deletedOf d o) := by
    rw [hdel_id, alGet_alModify_self, hr1,
      show Option.map deleteEntry (some r1) = some (deleteEntry r1) from rfl,
      deleteEntry_deletedOf reader uid r1 d o hok1 hg]
  obtain ⟨hgF, hncF⟩ := replayLogs_track_existing uid post hpost
    { st1 with existing_id_to_materialized :=
        alModify st1.existing_id_to_materialized del.record.id deleteEntry }
    stF (deletedOf d o) hget2 hnc1 hpost'
  have hall : ∀ op ∈ opsFor post uid,
      op.operation = Operation.add ∨ op.operation = Operation.update := by
    intro op hm
    obtain ⟨lr, hlr, rfl, hid⟩ := mem_opsFor post uid op hm
    exact hpost lr hlr hid
  refine ⟨?_, ?_, ?_⟩
  · rw [recordsFor_collect reader stF uid hwf hinvF, hgF,
      alGet_eq_none_of_not_contains _ _ hncF]
    rfl
  · obtain ⟨u, hu, hui, huo⟩ := hupd
    exact foldl_exReplayEntry_update_of_exists (opsFor post uid)
      ⟨u.record, opsFor_mem_of post uid u hu hui, huo⟩ _
  · rw [foldl_exReplayEntry_metadata (opsFor post uid) hall (deletedOf d o)]
    rfl

/-- C9 witness. -/
theorem materializeV2_delete_then_update_witness :
    materializeV2 [("e", ⟨"e", [1], none, none⟩, 3)]
      [⟨1, ⟨"e", none, none, none, .delete⟩⟩,
       ⟨2, ⟨"e", none, some [("k", .intValue 1)], none, .update⟩⟩] 4 =
      .ok [⟨some ⟨"e", [1], none, none⟩, 3, none, .update,
        some [("k", .intValue 1)], none, none⟩] ∧
    (recordsFor [⟨some ⟨"e", [1], none, none⟩, 3, none, .update,
        some [("k", .intValue 1)], none, none⟩] "e" =
      [(opsFor [⟨2, ⟨"e", none, some [("k", .intValue 1)], none, .update⟩⟩] "e").foldl
        exReplayEntry (deletedOf ⟨"e", [1], none, none⟩ 3)] ∧
     ((opsFor [⟨2, ⟨"e", none, some [("k", .intValue 1)], none, .update⟩⟩] "e").foldl
        exReplayEntry (deletedOf ⟨"e", [1], none, none⟩ 3)).final_operation =
        Operation.update ∧
     ((opsFor [⟨2, ⟨"e", none, some [("k", .intValue 1)], none, .update⟩⟩] "e").foldl
        exReplayEntry (deletedOf ⟨"e", [1], none, none⟩ 3)).metadata_to_be_merged =
      (updatePatches (opsFor
        [⟨2, ⟨"e", none, some [("k", .intValue 1)], none, .update⟩⟩] "e")).foldl
        merge_update_metadata none) :=
  ⟨by decide,
   materializeV2_delete_then_update [("e", ⟨"e", [1], none, none⟩, 3)]
     [] [⟨2, ⟨"e", none, some [("k", .intValue 1)], none, .update⟩⟩]
     ⟨1, ⟨"e", none, none, none, .delete⟩⟩ "e" ⟨"e", [1], none, none⟩ 3 4
     [⟨some ⟨"e", [1], none, none⟩, 3, none, .update,
       some [("k", .intValue 1)], none, none⟩]
     (by decide) (by decide) (by decide) (by decide) (by decide)
     ⟨⟨2, ⟨"e", none, some [("k", .intValue 1)], none, .update⟩⟩, by decide,
       by decide, by decide⟩
     (by decide)⟩

/-- C9 counterexample: with a further Delete after the Update, the output
record's operation is Delete and its metadata is `none`, so the claim as
stated (for batches merely containing a Delete followed later by an
Update) fails. -/
theorem materializeV2_delete_then_update_counterexample :
    materializeV2 [("e", ⟨"e", [1], none, none⟩, 3)]
      [⟨1, ⟨"e", none, none, none, .delete⟩⟩,
       ⟨2, ⟨"e", none, some [("k", .intValue 1)], none, .update⟩⟩,
       ⟨3, ⟨"e", none, none, none, .delete⟩⟩] 4 =
      .ok [⟨some ⟨"e", [1], none, none⟩, 3, none, .delete, none, none, none⟩] ∧
    Operation.delete ≠ Operation.update := by
  constructor
  · decide
  · decide
